import Mathlib

/-!
# Verification of the chunk-selection NLP pipeline

Shallow embedding of the text-processing pipeline (`nlp_pipeline.py`,
`llm_client.py`, `app.py`): text normalisation, segmentation, chunking with
sentence-boundary overlap, cosine-similarity relevance selection, and the
orchestration / error-handling flow.  Strings are modelled as `List Char`;
floating-point vectors are modelled as lists of real numbers; the two
external service calls are modelled as `Except`-valued parameters.
-/

namespace Projeto

/-! ## Character classes

`isPyWs` is the set of code points Python treats as whitespace, both for
`str.strip` and for the regex class `\s` (the two sets coincide).
`removedCtl` is the character class removed by the normaliser's regex
`[\x00-\x08\x0B-\x0C\x0E-\x1F\x7F]`. -/

def pyWsCodes : List Nat :=
  [0x9, 0xa, 0xb, 0xc, 0xd, 0x1c, 0x1d, 0x1e, 0x1f, 0x20, 0x85, 0xa0, 0x1680,
   0x2000, 0x2001, 0x2002, 0x2003, 0x2004, 0x2005, 0x2006, 0x2007, 0x2008,
   0x2009, 0x200a, 0x2028, 0x2029, 0x202f, 0x205f, 0x3000]

def isPyWs (c : Char) : Bool := pyWsCodes.contains c.toNat

def removedCtl (c : Char) : Bool :=
  decide (c.toNat ≤ 0x8 ∨ c.toNat = 0xb ∨ c.toNat = 0xc ∨
    (0xe ≤ c.toNat ∧ c.toNat ≤ 0x1f) ∨ c.toNat = 0x7f)

/-! ## Python `str.strip` -/

/-- Removal of trailing Python whitespace (the suffix part of `str.strip`). -/
def dropTrailWs (l : List Char) : List Char := (l.reverse.dropWhile isPyWs).reverse

/-- Python `str.strip()` on a list of characters. -/
def stripStr (l : List Char) : List Char := dropTrailWs (l.dropWhile isPyWs)

/-! ## Python `str.split('\n')` and `'\n'.join` -/

/-- Python `s.split('\n')`: the list of `'\n'`-free segments of `s`
(`"".split('\n') = ['']`). -/
def lines : List Char → List (List Char)
  | [] => [[]]
  | c :: rest =>
    if c = '\n' then [] :: lines rest
    else
      match lines rest with
      | l :: ls => (c :: l) :: ls
      | [] => [[c]]

/-- Python `'\n'.join(ls)`. -/
def joinLines : List (List Char) → List Char
  | [] => []
  | [l] => l
  | l :: l' :: ls => l ++ '\n' :: joinLines (l' :: ls)

/-! ## The four rewriting stages of `limpar_texto` -/

/-- Stage 2 of `limpar_texto`: `re.sub(r' +', ' ', s)` — every maximal run of
space characters is replaced by a single space. -/
def collapseSpaces : List Char → List Char
  | [] => []
  | [c] => [c]
  | c :: d :: rest =>
    if c = ' ' ∧ d = ' ' then collapseSpaces (d :: rest)
    else c :: collapseSpaces (d :: rest)

/-- The suffix of `l` strictly after the last `'\n'` in `l`
(`[]` when `l` has no `'\n'`). -/
def afterLastNl : List Char → List Char
  | [] => []
  | c :: r => if c = '\n' ∧ ¬ r.contains '\n' then r else afterLastNl r

/-- Stage 1 of `limpar_texto`: `re.sub(r'\n\s*\n', '\n\n', s)` with Python's
leftmost-greedy matching, written with explicit fuel so that the kernel can
evaluate it.  At a `'\n'` whose following maximal whitespace run contains
another `'\n'`, the match extends to the last `'\n'` of the run and is
replaced by `"\n\n"`; the scan resumes after the matched span (the run's
`'\n'`-free tail is rescanned, which copies it verbatim since no match can
start inside it). -/
def sub1F : Nat → List Char → List Char
  | _, [] => []
  | 0, s => s
  | fuel + 1, c :: rest =>
    if c = '\n' then
      let run := rest.takeWhile isPyWs
      if run.contains '\n' then
        '\n' :: '\n' :: sub1F fuel (afterLastNl run ++ rest.drop run.length)
      else '\n' :: sub1F fuel rest
    else c :: sub1F fuel rest

def sub1 (s : List Char) : List Char := sub1F s.length s

/-- Stage 3 of `limpar_texto`: strip every line and rejoin with `'\n'`. -/
def stripLines (s : List Char) : List Char := joinLines ((lines s).map stripStr)

/-- Stage 4 of `limpar_texto`: remove the control characters matched by
`[\x00-\x08\x0B-\x0C\x0E-\x1F\x7F]`. -/
def removeCtl (s : List Char) : List Char := s.filter (fun c => !(removedCtl c))

/-- `nlp_pipeline.limpar_texto`: collapse blank-line runs, collapse space
runs, strip each line, remove control characters, strip the result. -/
def limpar_texto (t : List Char) : List Char :=
  stripStr (removeCtl (stripLines (collapseSpaces (sub1 t))))

/-! ## Segmentation (`segmentar_em_paragrafos`, `segmentar_em_frases`) and
word counting (`contar_palavras`) -/

/-- Python `texto.split()`: the maximal whitespace-free words of `s`. -/
def palavras : List Char → List (List Char)
  | [] => []
  | c :: rest =>
    if isPyWs c then palavras rest
    else
      match rest with
      | [] => [[c]]
      | d :: _ =>
        if isPyWs d then [c] :: palavras rest
        else
          match palavras rest with
          | w :: ws => (c :: w) :: ws
          | [] => [[c]]

/-- `nlp_pipeline.contar_palavras`: `len(texto.split())`. -/
def contar_palavras (texto : List Char) : Nat := (palavras texto).length

/-- The raw pieces of `re.split(r'\n\s*\n', texto)` (fuel-based; a split
happens at each leftmost-greedy match of a blank-line run). -/
def splitParasF : Nat → List Char → List (List Char)
  | _, [] => [[]]
  | 0, s => [s]
  | fuel + 1, c :: rest =>
    if c = '\n' ∧ (rest.takeWhile isPyWs).contains '\n' then
      let run := rest.takeWhile isPyWs
      [] :: splitParasF fuel (afterLastNl run ++ rest.drop run.length)
    else
      match splitParasF fuel rest with
      | p :: ps => (c :: p) :: ps
      | [] => [[c]]

/-- `nlp_pipeline.segmentar_em_paragrafos`: split on blank-line runs, strip
each piece, drop the empty ones. -/
def segmentar_em_paragrafos (texto : List Char) : List (List Char) :=
  ((splitParasF texto.length texto).map stripStr).filter (fun p => p ≠ [])

/-- Sentence-final punctuation of the regex fallback segmenter. -/
def isFimFrase (c : Char) : Bool := c = '.' ∨ c = '!' ∨ c = '?'

/-- The uppercase class `[A-ZÁÀÂÃÉÈÊÍÏÓÔÕÖÚÇÑ]` of the regex fallback. -/
def isMaiuscula (c : Char) : Bool :=
  (('A' ≤ c ∧ c ≤ 'Z') : Prop) ∨
    c ∈ ['Á', 'À', 'Â', 'Ã', 'É', 'È', 'Ê', 'Í', 'Ï', 'Ó', 'Ô', 'Õ', 'Ö', 'Ú', 'Ç', 'Ñ']

/-- The raw pieces of `re.split(r'(?<=[.!?])\s+(?=[A-ZÁÀÂÃÉÈÊÍÏÓÔÕÖÚÇÑ])', s)`:
split at a nonempty whitespace run preceded by sentence-final punctuation and
followed by an uppercase letter. -/
def splitFrasesF : Nat → List Char → List (List Char)
  | _, [] => [[]]
  | 0, s => [s]
  | fuel + 1, c :: rest =>
    let run := rest.takeWhile isPyWs
    let apos := rest.drop run.length
    if isFimFrase c && !run.isEmpty && (match apos with | a :: _ => isMaiuscula a | [] => false) then
      [c] :: splitFrasesF fuel apos
    else
      match splitFrasesF fuel rest with
      | p :: ps => (c :: p) :: ps
      | [] => [[c]]

/-- `nlp_pipeline.segmentar_em_frases` (the regex fallback segmenter). -/
def segmentar_em_frases (texto : List Char) : List (List Char) :=
  ((splitFrasesF texto.length texto).map stripStr).filter (fun p => p ≠ [])

/-- The record returned by `nlp_pipeline.calcular_estatisticas`. -/
structure Estatisticas where
  num_caracteres : Nat
  num_palavras : Nat
  num_frases : Nat
  num_paragrafos : Nat

/-- `nlp_pipeline.calcular_estatisticas`. -/
def calcular_estatisticas (texto : List Char) : Estatisticas :=
  { num_caracteres := texto.length
    num_palavras := contar_palavras texto
    num_frases := (segmentar_em_frases texto).length
    num_paragrafos := (segmentar_em_paragrafos texto).length }

/-! ## Chunks (`criar_chunks`)

A chunk is the dictionary built by `criar_chunks`; the `similaridade` field
models the optional `'similaridade'` key, absent (`none`) until
`selecionar_chunks_relevantes` attaches it. -/

structure Chunk where
  indice : Nat
  texto : List Char
  tamanho : Nat
  num_palavras : Nat
  num_sentencas : Nat
  similaridade : Option ℝ

/-- The chunk dictionary emitted by `criar_chunks` for buffer `buf` and
contributing segment list `sents`. -/
def mkChunk (idx : Nat) (buf : List Char) (sents : List (List Char)) : Chunk :=
  { indice := idx
    texto := stripStr buf
    tamanho := (stripStr buf).length
    num_palavras := contar_palavras (stripStr buf)
    num_sentencas := sents.length
    similaridade := none }

/-- Python `" ".join(ls)`. -/
def joinSp : List (List Char) → List Char
  | [] => []
  | [l] => l
  | l :: l' :: ls => l ++ ' ' :: joinSp (l' :: ls)

/-- The greedy walk of `criar_chunks`'s overlap seeding, over the reversed
segment list: accumulate whole segments while the cumulative character count
stays within `overlap`, stop at the first segment that would exceed it. -/
def overlapAcc (overlap : Nat) : List (List Char) → Nat → List (List Char)
  | [], _ => []
  | s :: rest, acc =>
    if acc + s.length ≤ overlap then s :: overlapAcc overlap rest (acc + s.length)
    else []

/-- The overlap tail retained for the new buffer: the maximal suffix of the
just-finished segment list accumulated by the backwards walk. -/
def overlapTail (sents : List (List Char)) (overlap : Nat) : List (List Char) :=
  (overlapAcc overlap sents.reverse 0).reverse

/-- Total character count of a list of segments (the `overlap_chars` budget
counts segment lengths only, not separators). -/
def sumLens (ls : List (List Char)) : Nat := (ls.map List.length).sum

/-- The loop state of `criar_chunks`: emitted chunks, current buffer
(`chunk_atual`), segments contributed to the buffer (`sentencas_no_chunk`),
and the running index (`indice_chunk`). -/
structure ChunkState where
  chunks : List Chunk
  chunk_atual : List Char
  sentencas : List (List Char)
  indice : Nat

def estadoInicial : ChunkState := ⟨[], [], [], 0⟩

/-- One iteration of `criar_chunks`'s loop body on the next segment. -/
def criarStep (tamanho overlap : Nat) (st : ChunkState) (sentenca : List Char) : ChunkState :=
  if st.chunk_atual.length + sentenca.length ≤ tamanho then
    { st with
      chunk_atual := st.chunk_atual ++ sentenca ++ [' ']
      sentencas := st.sentencas ++ [sentenca] }
  else
    let emitir := stripStr st.chunk_atual ≠ []
    let chunks' := if emitir then st.chunks ++ [mkChunk st.indice st.chunk_atual st.sentencas] else st.chunks
    let indice' := if emitir then st.indice + 1 else st.indice
    if 0 < overlap ∧ st.sentencas ≠ [] then
      let ov := overlapTail st.sentencas overlap
      { chunks := chunks'
        chunk_atual := joinSp ov ++ ' ' :: (sentenca ++ [' '])
        sentencas := ov ++ [sentenca]
        indice := indice' }
    else
      { chunks := chunks'
        chunk_atual := sentenca ++ [' ']
        sentencas := [sentenca]
        indice := indice' }

/-- `criar_chunks`'s accumulation loop over a segment list, followed by the
final emission of a nonempty buffer. -/
def criar_chunks_de (sentencas : List (List Char)) (tamanho overlap : Nat) : List Chunk :=
  let fin := sentencas.foldl (criarStep tamanho overlap) estadoInicial
  fin.chunks ++
    (if stripStr fin.chunk_atual ≠ [] then [mkChunk fin.indice fin.chunk_atual fin.sentencas] else [])

/-- `nlp_pipeline.criar_chunks`: segment the text with the chosen strategy
(spaCy sentences when available, else paragraphs — the strategy is an
external collaborator, passed as the function `segmentar`), then run the
accumulation loop. -/
def criar_chunks (segmentar : List Char → List (List Char)) (texto : List Char)
    (tamanho overlap : Nat) : List Chunk :=
  criar_chunks_de (segmentar texto) tamanho overlap

/-! ## Embeddings, cosine similarity, relevance selection

Embedding vectors are modelled as lists of real numbers. -/

/-- `np.dot` on vectors. -/
def dot (a b : List ℝ) : ℝ := (List.zipWith (fun x y => x * y) a b).sum

/-- The squared Euclidean norm; `np.linalg.norm a = Real.sqrt (sumSq a)`. -/
def sumSq (a : List ℝ) : ℝ := dot a a

/-- `np.linalg.norm`. -/
noncomputable def normVec (a : List ℝ) : ℝ := Real.sqrt (sumSq a)

/-- `nlp_pipeline.calcular_similaridade_coseno`: `0.0` when either norm is
zero, else the dot product divided by the product of the norms. -/
noncomputable def calcular_similaridade_coseno (embedding1 embedding2 : List ℝ) : ℝ :=
  if normVec embedding1 = 0 ∨ normVec embedding2 = 0 then 0
  else dot embedding1 embedding2 / (normVec embedding1 * normVec embedding2)

/-- One element of the `similaridades` list built by
`selecionar_chunks_relevantes`. -/
structure SimEntry where
  indice_original : Nat
  chunk : Chunk
  similaridade : ℝ

/-- Attaching the similarity value to a copy of a chunk
(`chunk.copy()` followed by `chunk['similaridade'] = sim`). -/
def comSimilaridade (c : Chunk) (sim : ℝ) : Chunk := { c with similaridade := some sim }

/-- `nlp_pipeline.selecionar_chunks_relevantes`.  Python's `sorted` is a
stable sort, modelled by `List.mergeSort`; `max(1, int(...))` equals
`max 1 (Int.toNat ⌊...⌋)` (for a nonnegative argument `int` truncates to the
floor, and for a negative one both sides collapse to `1`).  The entry list
pairs each embedding with the chunk at the same position, as the source's
`enumerate(embeddings_chunks)` with `chunks[i]` does when the two lists are
positionally aligned. -/
noncomputable def selecionar_chunks_relevantes (chunks : List Chunk)
    (embeddings_chunks : List (List ℝ)) (embedding_global : List ℝ)
    (percentual_selecao : ℝ) : List Chunk :=
  if chunks.isEmpty || embeddings_chunks.isEmpty then chunks
  else
    let similaridades := (chunks.zip embeddings_chunks).enum.map
      (fun p => SimEntry.mk p.1 p.2.1 (calcular_similaridade_coseno p.2.2 embedding_global))
    let ordenadas := similaridades.mergeSort
      (fun a b => decide (b.similaridade ≤ a.similaridade))
    let num_selecionar := max 1 (Int.toNat ⌊(chunks.length : ℝ) * percentual_selecao⌋)
    let selecionados := (ordenadas.take num_selecionar).mergeSort
      (fun a b => decide (a.indice_original ≤ b.indice_original))
    selecionados.map (fun e => comSimilaridade e.chunk e.similaridade)

/-! ## `llm_client`: truncation and the two external-call boundaries -/

/-- Python `texto.rfind(' ')` as an optional index. -/
def rfindSpace (l : List Char) : Option Nat :=
  (l.reverse.findIdx? (fun c => c = ' ')).map (fun j => l.length - 1 - j)

/-- `llm_client.truncar_texto_para_embedding`: texts of at most
`max_tokens * 4` characters pass through; longer texts are cut to the
`max_tokens * 4`-character prefix, then shortened to the last space of that
prefix when one exists at a positive index. -/
def truncar_texto_para_embedding (texto : List Char) (max_tokens : Nat) : List Char :=
  let max_chars := max_tokens * 4
  if texto.length ≤ max_chars then texto
  else
    let texto_truncado := texto.take max_chars
    match rfindSpace texto_truncado with
    | some i => if 0 < i then texto_truncado.take i else texto_truncado
    | none => texto_truncado

/-- The 1536-dimensional zero vector `np.zeros(1536)`. -/
def zeros1536 : List ℝ := List.replicate 1536 0

/-- `llm_client.gerar_embedding`.  The outcome of the external API call is
the parameter `chamada`: `.ok v` when the request returns vector `v`,
`.error e` when it raises with message `e`.  The `except` branch of the
source catches every exception and returns `np.zeros(1536)`. -/
def gerar_embedding (texto : List Char) (chamada : Except (List Char) (List ℝ)) : List ℝ :=
  if stripStr texto = [] then zeros1536
  else
    match chamada with
    | .ok v => v
    | .error _ => zeros1536

/-- `llm_client.gerar_embeddings_batch`: on an exception from the batch call
the `except` branch returns one zero vector per input text. -/
def gerar_embeddings_batch (textos : List (List Char))
    (chamada : Except (List Char) (List (List ℝ))) : List (List ℝ) :=
  if textos = [] then []
  else
    match chamada with
    | .ok vs => vs
    | .error _ => textos.map (fun _ => zeros1536)

/-- `llm_client.gerar_embeddings_para_chunks`. -/
def gerar_embeddings_para_chunks (chunks : List Chunk)
    (chamada : Except (List Char) (List (List ℝ))) : List (List ℝ) :=
  if chunks.isEmpty then []
  else gerar_embeddings_batch (chunks.map (fun c => c.texto)) chamada

/-- The dictionary returned by `llm_client.gerar_texto_o4_mini`. -/
structure RespostaLLM where
  texto_gerado : List Char
  sucesso : Bool
  erro : Option (List Char)

/-- `llm_client.gerar_texto_o4_mini`: a successful generation call yields the
stripped response with `sucesso = True`; an exception is caught and reported
as `sucesso = False` with an error message. -/
def gerar_texto_o4_mini (chamada : Except (List Char) (List Char)) : RespostaLLM :=
  match chamada with
  | .ok t => { texto_gerado := stripStr t, sucesso := true, erro := none }
  | .error e => { texto_gerado := [], sucesso := false, erro := some e }

/-! ## The orchestrator (`app.processar_texto`) -/

/-- `nlp_pipeline.processar_texto_completo`: clean, compute statistics,
chunk (`overlap = 200`). -/
def processar_texto_completo (segmentar : List Char → List (List Char))
    (texto : List Char) (tamanho_chunk : Nat) :
    List Char × List Chunk × Estatisticas :=
  let texto_limpo := limpar_texto texto
  let estatisticas := calcular_estatisticas texto_limpo
  let chunks := criar_chunks segmentar texto_limpo tamanho_chunk 200
  (texto_limpo, chunks, estatisticas)

/-- The result dictionary built by `app.processar_texto`. -/
structure ResultadoProcessamento where
  sucesso : Bool
  texto_gerado : List Char
  estatisticas_entrada : Estatisticas
  estatisticas_saida : Option Estatisticas
  chunks : List Chunk
  chunks_selecionados : List Chunk
  erro : Option (List Char)

/-- `app.processar_texto`: the full pipeline with `tamanho_chunk = 500` and
`percentual_selecao = 0.7`.  The three external-call outcomes are the
`Except` parameters; every internal stage is pure. -/
noncomputable def processar_texto (segmentar : List Char → List (List Char))
    (texto_entrada : List Char)
    (chamada_embedding_global : Except (List Char) (List ℝ))
    (chamada_embeddings_chunks : Except (List Char) (List (List ℝ)))
    (chamada_geracao : Except (List Char) (List Char)) : ResultadoProcessamento :=
  let etapa1 := processar_texto_completo segmentar texto_entrada 500
  let texto_limpo := etapa1.1
  let chunks := etapa1.2.1
  let estatisticas := etapa1.2.2
  let embedding_global := gerar_embedding texto_limpo chamada_embedding_global
  let embeddings_chunks := gerar_embeddings_para_chunks chunks chamada_embeddings_chunks
  let chunks_selecionados :=
    selecionar_chunks_relevantes chunks embeddings_chunks embedding_global ((7 : ℝ) / 10)
  let resposta := gerar_texto_o4_mini chamada_geracao
  if resposta.sucesso then
    { sucesso := true
      texto_gerado := resposta.texto_gerado
      estatisticas_entrada := estatisticas
      estatisticas_saida := some (calcular_estatisticas resposta.texto_gerado)
      chunks := chunks
      chunks_selecionados := chunks_selecionados
      erro := none }
  else
    { sucesso := false
      texto_gerado := []
      estatisticas_entrada := estatisticas
      estatisticas_saida := none
      chunks := chunks
      chunks_selecionados := chunks_selecionados
      erro := resposta.erro }

/-! ## Substring predicates -/

/-- `p` occurs as a contiguous substring of `s`. -/
def ContSub (p s : List Char) : Prop := ∃ u v, s = u ++ p ++ v

/-- `s` starts with `p`. -/
def StartsWith (p s : List Char) : Prop := ∃ v, s = p ++ v

/-- `s` ends with `p`. -/
def EndsWith (p s : List Char) : Prop := ∃ u, s = u ++ p

/-- Every character is Python whitespace. -/
def AllWs (l : List Char) : Prop := ∀ c ∈ l, isPyWs c = true

/-- No two consecutive space characters occur. -/
def NoDoubleSpace (s : List Char) : Prop := ¬ ContSub [' ', ' '] s

/-- Immediately after a `'\n'` only `'\n'` or a non-whitespace character
occurs. -/
def AfterNlOk (s : List Char) : Prop :=
  ∀ c : Char, isPyWs c = true → c ≠ '\n' → ¬ ContSub ['\n', c] s

/-- Immediately before a `'\n'` only `'\n'` or a non-whitespace character
occurs. -/
def BeforeNlOk (s : List Char) : Prop :=
  ∀ c : Char, isPyWs c = true → c ≠ '\n' → ¬ ContSub [c, '\n'] s

/-- No three consecutive `'\n'` occur. -/
def NoTripleNl (s : List Char) : Prop := ¬ ContSub ['\n', '\n', '\n'] s

/-- Between two `'\n'`s separated by whitespace only, the gap is empty: no
occurrence of `'\n' ++ u ++ '\n'` with `u` nonempty and all-whitespace. -/
def NlGapsOk (s : List Char) : Prop :=
  ∀ u : List Char, u ≠ [] → AllWs u → ¬ ContSub ('\n' :: u ++ ['\n']) s

/-- No character of the control class removed by `limpar_texto` occurs. -/
def NoCtl (s : List Char) : Prop := ∀ c ∈ s, removedCtl c = false

instance (s : List Char) : Decidable (NoCtl s) :=
  inferInstanceAs (Decidable (∀ c ∈ s, removedCtl c = false))

instance (l : List Char) : Decidable (AllWs l) :=
  inferInstanceAs (Decidable (∀ c ∈ l, isPyWs c = true))

/-- `s` is a fixed point of `str.strip`. -/
def Stripped (s : List Char) : Prop := stripStr s = s

/-- `WsDel s t`: `t` is obtained from `s` by deleting some whitespace
characters (used to transport gap properties through the whitespace-deleting
stages of `limpar_texto`). -/
inductive WsDel : List Char → List Char → Prop
  | nil : WsDel [] []
  | keep (c : Char) {s t : List Char} : WsDel s t → WsDel (c :: s) (c :: t)
  | del {c : Char} {s t : List Char} : isPyWs c = true → WsDel s t → WsDel (c :: s) t

theorem ContSub.of_startsWith {p s : List Char} (h : StartsWith p s) : ContSub p s := by
  obtain ⟨v, hv⟩ := h; exact ⟨[], v, by simpa using hv⟩

theorem contSub_nil_right {p : List Char} (h : ContSub p []) : p = [] := by
  obtain ⟨u, v, h⟩ := h
  rcases List.append_eq_nil.mp (List.append_eq_nil.mp h.symm).1 with ⟨_, h2⟩
  exact h2

theorem contSub_cons_iff {p s : List Char} {c : Char} :
    ContSub p (c :: s) ↔ StartsWith p (c :: s) ∨ ContSub p s := by
  constructor
  · rintro ⟨u, v, h⟩
    cases u with
    | nil => exact Or.inl ⟨v, by simpa using h⟩
    | cons a u =>
      rw [List.cons_append, List.cons_append] at h
      injection h with h1 h2
      subst h1
      exact Or.inr ⟨u, v, h2⟩
  · rintro (⟨v, hv⟩ | ⟨u, v, hv⟩)
    · exact ⟨[], v, by simpa using hv⟩
    · exact ⟨c :: u, v, by simp [hv]⟩

theorem startsWith_cons_iff {p s : List Char} {c : Char} :
    StartsWith p (c :: s) ↔ p = [] ∨ ∃ q, p = c :: q ∧ StartsWith q s := by
  constructor
  · rintro ⟨v, h⟩
    cases p with
    | nil => exact Or.inl rfl
    | cons a q =>
      rw [List.cons_append] at h
      injection h with h1 h2
      subst h1
      exact Or.inr ⟨q, rfl, v, h2⟩
  · rintro (rfl | ⟨q, rfl, v, hv⟩)
    · exact ⟨c :: s, rfl⟩
    · exact ⟨v, by simp [hv]⟩

theorem ContSub.cons_of {p s : List Char} (c : Char) (h : ContSub p s) :
    ContSub p (c :: s) := contSub_cons_iff.mpr (Or.inr h)

theorem ContSub.append_left {p s : List Char} (u : List Char) (h : ContSub p s) :
    ContSub p (u ++ s) := by
  induction u with
  | nil => simpa using h
  | cons a u ih => exact ih.cons_of a

theorem ContSub.append_right {p s : List Char} (v : List Char) (h : ContSub p s) :
    ContSub p (s ++ v) := by
  obtain ⟨x, y, hxy⟩ := h
  exact ⟨x, y ++ v, by simp [hxy]⟩

theorem ContSub.trans {p q s : List Char} (h₁ : ContSub p q) (h₂ : ContSub q s) :
    ContSub p s := by
  obtain ⟨a, b, hab⟩ := h₁
  obtain ⟨u, v, huv⟩ := h₂
  exact ⟨u ++ a, b ++ v, by simp [huv, hab]⟩

theorem contSub_mem {p s : List Char} {c : Char} (h : ContSub p s) (hc : c ∈ p) : c ∈ s := by
  obtain ⟨u, v, rfl⟩ := h
  simp [hc]

theorem not_contSub_of_not_mem {p s : List Char} {c : Char} (hc : c ∈ p) (hs : c ∉ s) :
    ¬ ContSub p s := fun h => hs (contSub_mem h hc)

theorem startsWith_append_cases {q x y : List Char} (h : StartsWith q (x ++ y)) :
    StartsWith q x ∨ ∃ q₂, q = x ++ q₂ ∧ StartsWith q₂ y := by
  induction x generalizing q with
  | nil => exact Or.inr ⟨q, rfl, h⟩
  | cons a x ih =>
    rcases startsWith_cons_iff.mp h with rfl | ⟨q', rfl, hq'⟩
    · exact Or.inl ⟨a :: x, rfl⟩
    · rcases ih hq' with h1 | ⟨q₂, rfl, h2⟩
      · obtain ⟨v, hv⟩ := h1
        exact Or.inl ⟨v, by simp [hv]⟩
      · exact Or.inr ⟨q₂, by simp, h2⟩

theorem contSub_append_cases {p x y : List Char} (h : ContSub p (x ++ y)) :
    ContSub p x ∨ ContSub p y ∨
      ∃ p₁ p₂, p = p₁ ++ p₂ ∧ p₁ ≠ [] ∧ p₂ ≠ [] ∧ EndsWith p₁ x ∧ StartsWith p₂ y := by
  induction x generalizing p with
  | nil => exact Or.inr (Or.inl (by simpa using h))
  | cons a x ih =>
    rcases contSub_cons_iff.mp h with hsw | hcs
    · rcases startsWith_cons_iff.mp hsw with rfl | ⟨q, rfl, hq⟩
      · exact Or.inl ⟨[], a :: x, by simp⟩
      · rcases startsWith_append_cases hq with h1 | ⟨q₂, rfl, h2⟩
        · obtain ⟨v, hv⟩ := h1
          exact Or.inl ⟨[], v, by simp [hv]⟩
        · by_cases hq2 : q₂ = []
          · subst hq2
            exact Or.inl ⟨[], [], by simp⟩
          · exact Or.inr (Or.inr ⟨a :: x, q₂, by simp, by simp, hq2, ⟨[], rfl⟩, h2⟩)
    · rcases ih hcs with h1 | h2 | ⟨p₁, p₂, rfl, hp₁, hp₂, ⟨u, hu⟩, hsw2⟩
      · exact Or.inl (h1.cons_of a)
      · exact Or.inr (Or.inl h2)
      · exact Or.inr (Or.inr ⟨p₁, p₂, rfl, hp₁, hp₂, ⟨a :: u, by simp [hu]⟩, hsw2⟩)

/-! ## Lemmas about `stripStr` -/

theorem allWs_takeWhile (s : List Char) : AllWs (s.takeWhile isPyWs) := by
  intro c hc
  exact List.mem_takeWhile_imp hc

theorem dropWhileWs_head {s : List Char} {c : Char} {r : List Char}
    (h : s.dropWhile isPyWs = c :: r) : isPyWs c = false := by
  induction s with
  | nil => simp at h
  | cons a s ih =>
    by_cases ha : isPyWs a
    · rw [List.dropWhile_cons_of_pos ha] at h
      exact ih h
    · rw [List.dropWhile_cons_of_neg ha] at h
      cases h
      simpa using ha

theorem dropWhileWs_eq_self {s : List Char}
    (h : ∀ c r, s = c :: r → isPyWs c = false) : s.dropWhile isPyWs = s := by
  cases s with
  | nil => rfl
  | cons a s => rw [List.dropWhile_cons_of_neg (by simp [h a s rfl])]

/-- `s` splits as its all-whitespace head, then `dropWhile`. -/
theorem dropWhileWs_slice (s : List Char) :
    ∃ u, s = u ++ s.dropWhile isPyWs ∧ AllWs u :=
  ⟨s.takeWhile isPyWs, (List.takeWhile_append_dropWhile isPyWs s).symm, allWs_takeWhile s⟩

theorem dropTrailWs_slice (s : List Char) :
    ∃ v, s = dropTrailWs s ++ v ∧ AllWs v := by
  refine ⟨(s.reverse.takeWhile isPyWs).reverse, ?_, ?_⟩
  · have h2 := congrArg List.reverse (List.takeWhile_append_dropWhile isPyWs s.reverse)
    rw [List.reverse_append, List.reverse_reverse] at h2
    exact h2.symm
  · intro c hc
    exact List.mem_takeWhile_imp (List.mem_reverse.mp hc)

theorem stripStr_slice (s : List Char) :
    ∃ u v, s = u ++ stripStr s ++ v ∧ AllWs u ∧ AllWs v := by
  obtain ⟨u, hu, hu'⟩ := dropWhileWs_slice s
  obtain ⟨v, hv, hv'⟩ := dropTrailWs_slice (s.dropWhile isPyWs)
  refine ⟨u, v, ?_, hu', hv'⟩
  calc s = u ++ s.dropWhile isPyWs := hu
    _ = u ++ (dropTrailWs (s.dropWhile isPyWs) ++ v) := by rw [← hv]
    _ = u ++ stripStr s ++ v := by simp [stripStr]

theorem contSub_stripStr (s : List Char) : ContSub (stripStr s) s := by
  obtain ⟨u, v, h, _, _⟩ := stripStr_slice s
  exact ⟨u, v, h⟩

theorem dropTrailWs_cons {c : Char} {l : List Char} (hc : isPyWs c = false) :
    dropTrailWs (c :: l) = c :: dropTrailWs l := by
  unfold dropTrailWs
  rw [List.reverse_cons]
  rcases h : l.reverse.dropWhile isPyWs with _ | ⟨a, r⟩
  · have : (l.reverse ++ [c]).dropWhile isPyWs = [c] := by
      rw [List.dropWhile_append]
      simp [h, hc]
    simp [this, h]
  · have : (l.reverse ++ [c]).dropWhile isPyWs = a :: (r ++ [c]) := by
      rw [List.dropWhile_append]
      simp [h]
    simp [this, h]

theorem dropTrailWs_last {s u : List Char} {d : Char}
    (h : dropTrailWs s = u ++ [d]) : isPyWs d = false := by
  have h' : s.reverse.dropWhile isPyWs = d :: u.reverse := by
    have := congrArg List.reverse h
    simpa [dropTrailWs] using this
  exact dropWhileWs_head h'

theorem dropTrailWs_eq_self {s : List Char}
    (h : ∀ u d, s = u ++ [d] → isPyWs d = false) : dropTrailWs s = s := by
  unfold dropTrailWs
  rw [dropWhileWs_eq_self, List.reverse_reverse]
  intro c r hr
  have : s = r.reverse ++ [c] := by
    have := congrArg List.reverse hr
    simpa using this
  exact h _ _ this

theorem stripStr_head {s : List Char} {c : Char} {r : List Char}
    (h : stripStr s = c :: r) : isPyWs c = false := by
  unfold stripStr at h
  obtain ⟨v, hv, _⟩ := dropTrailWs_slice (s.dropWhile isPyWs)
  rw [h] at hv
  exact dropWhileWs_head (show s.dropWhile isPyWs = c :: (r ++ v) by simpa using hv)

theorem stripStr_last {s u : List Char} {d : Char}
    (h : stripStr s = u ++ [d]) : isPyWs d = false := dropTrailWs_last h

theorem stripStr_eq_self {s : List Char}
    (hhead : ∀ c r, s = c :: r → isPyWs c = false)
    (hlast : ∀ u d, s = u ++ [d] → isPyWs d = false) : stripStr s = s := by
  unfold stripStr
  rw [dropWhileWs_eq_self hhead]
  exact dropTrailWs_eq_self hlast

theorem stripStr_idem (s : List Char) : Stripped (stripStr s) := by
  unfold Stripped
  rcases h : stripStr s with _ | ⟨c, r⟩
  · rfl
  · refine stripStr_eq_self ?_ ?_
    · intro c' r' h'
      rw [h'] at h
      exact stripStr_head h
    · intro u d h'
      rw [h'] at h
      exact stripStr_last h

theorem stripped_head {s : List Char} (h : Stripped s) :
    ∀ c r, s = c :: r → isPyWs c = false := by
  intro c r hr
  exact stripStr_head (show stripStr s = c :: r by rw [h, hr])

theorem stripped_last {s : List Char} (h : Stripped s) :
    ∀ u d, s = u ++ [d] → isPyWs d = false := by
  intro u d hr
  exact stripStr_last (show stripStr s = u ++ [d] by rw [h, hr])

theorem mem_stripStr {s : List Char} {c : Char} (h : c ∈ stripStr s) : c ∈ s :=
  contSub_mem (contSub_stripStr s) h

/-! ## Lemmas about `lines`, `joinLines`, `stripLines` -/

theorem contSub_length {p s : List Char} (h : ContSub p s) : p.length ≤ s.length := by
  obtain ⟨u, v, rfl⟩ := h
  simp
  omega

theorem lines_ne_nil (s : List Char) : lines s ≠ [] := by
  cases s with
  | nil => simp [lines]
  | cons c rest =>
    rw [lines]
    split
    · simp
    · split <;> simp

theorem lines_no_nl (s : List Char) : ∀ l ∈ lines s, '\n' ∉ l := by
  induction s with
  | nil => intro l hl; simp [lines] at hl; simp [hl]
  | cons c rest ih =>
    intro l hl
    by_cases hc : c = '\n'
    · rw [lines, if_pos hc] at hl
      rcases List.mem_cons.mp hl with rfl | hl
      · simp
      · exact ih l hl
    · rcases hrest : lines rest with _ | ⟨l₀, ls⟩
      · exact absurd hrest (lines_ne_nil rest)
      · rw [lines, if_neg hc, hrest] at hl
        rcases List.mem_cons.mp hl with rfl | hl
        · intro hmem
          rcases List.mem_cons.mp hmem with h | h
          · exact hc h.symm
          · exact ih l₀ (by rw [hrest]; simp) h
        · exact ih l (by rw [hrest]; exact List.mem_cons_of_mem l₀ hl)

theorem joinLines_lines (s : List Char) : joinLines (lines s) = s := by
  induction s with
  | nil => rfl
  | cons c rest ih =>
    rw [lines]
    by_cases hc : c = '\n'
    · rw [if_pos hc]
      rcases hrest : lines rest with _ | ⟨l₀, ls⟩
      · exact absurd hrest (lines_ne_nil rest)
      · rw [joinLines, hc]
        rw [hrest] at ih
        rw [ih]
        rfl
    · rw [if_neg hc]
      rcases hrest : lines rest with _ | ⟨l₀, ls⟩
      · exact absurd hrest (lines_ne_nil rest)
      · rw [hrest] at ih
        cases ls with
        | nil =>
          rw [joinLines]
          rw [joinLines] at ih
          rw [ih]
        | cons l₁ ls' =>
          rw [joinLines]
          rw [joinLines] at ih
          rw [List.cons_append, ih]

theorem lines_append_nl {l₀ : List Char} (r : List Char) (h : '\n' ∉ l₀) :
    lines (l₀ ++ '\n' :: r) = l₀ :: lines r := by
  induction l₀ with
  | nil => simp [lines]
  | cons a l₀ ih =>
    have ha : a ≠ '\n' := fun hh => h (hh ▸ List.mem_cons_self a l₀)
    rw [List.cons_append, lines, if_neg ha, ih (fun hm => h (List.mem_cons_of_mem a hm))]

theorem lines_of_no_nl {s : List Char} (h : '\n' ∉ s) : lines s = [s] := by
  induction s with
  | nil => rfl
  | cons c rest ih =>
    have hc : c ≠ '\n' := fun hh => h (hh ▸ List.mem_cons_self c rest)
    rw [lines, if_neg hc, ih (fun hm => h (List.mem_cons_of_mem c hm))]

theorem split_first_nl (s : List Char) :
    '\n' ∉ s ∨ ∃ l₀ r, s = l₀ ++ '\n' :: r ∧ '\n' ∉ l₀ := by
  induction s with
  | nil => exact Or.inl (by simp)
  | cons c rest ih =>
    by_cases hc : c = '\n'
    · exact Or.inr ⟨[], rest, by simp [hc], by simp⟩
    · rcases ih with h | ⟨l₀, r, rfl, hl₀⟩
      · exact Or.inl (by simp [hc, h, Ne.symm hc])
      · refine Or.inr ⟨c :: l₀, r, by simp, ?_⟩
        intro hm
        rcases List.mem_cons.mp hm with h | h
        · exact hc h.symm
        · exact hl₀ h

theorem mem_joinLines {ls : List (List Char)} {c : Char} (h : c ∈ joinLines ls) :
    c = '\n' ∨ ∃ l ∈ ls, c ∈ l := by
  induction ls with
  | nil => simp [joinLines] at h
  | cons l ls ih =>
    cases ls with
    | nil => exact Or.inr ⟨l, by simp, by simpa [joinLines] using h⟩
    | cons l' ls' =>
      rw [joinLines] at h
      rcases List.mem_append.mp h with h | h
      · exact Or.inr ⟨l, by simp, h⟩
      · rcases List.mem_cons.mp h with rfl | h
        · exact Or.inl rfl
        · rcases ih h with h | ⟨m, hm, hcm⟩
          · exact Or.inl h
          · exact Or.inr ⟨m, List.mem_cons_of_mem l hm, hcm⟩

theorem contSub_of_mem_joinLines {ls : List (List Char)} {l : List Char} (h : l ∈ ls) :
    ContSub l (joinLines ls) := by
  induction ls with
  | nil => simp at h
  | cons l₀ ls ih =>
    cases ls with
    | nil =>
      rcases List.mem_singleton.mp h with rfl
      exact ⟨[], [], by simp [joinLines]⟩
    | cons l₁ ls' =>
      rw [joinLines]
      rcases List.mem_cons.mp h with rfl | h
      · exact ⟨[], '\n' :: joinLines (l₁ :: ls'), by simp⟩
      · exact ((ih h).cons_of '\n').append_left l₀

/-- Splitting a two-character pattern into two nonempty halves. -/
theorem pair_split {p₁ p₂ : List Char} {x y : Char} (h : p₁ ++ p₂ = [x, y])
    (h₁ : p₁ ≠ []) (h₂ : p₂ ≠ []) : p₁ = [x] ∧ p₂ = [y] := by
  cases p₁ with
  | nil => exact absurd rfl h₁
  | cons a p₁ =>
    rw [List.cons_append] at h
    injection h with hx h
    subst hx
    cases p₁ with
    | nil => exact ⟨rfl, by simpa using h⟩
    | cons b p₁ =>
      rw [List.cons_append] at h
      injection h with hy h
      exact absurd (List.append_eq_nil.mp h).2 h₂

theorem noDS_joinLines {ls : List (List Char)} (h : ∀ l ∈ ls, NoDoubleSpace l) :
    NoDoubleSpace (joinLines ls) := by
  induction ls with
  | nil => exact fun hc => by simpa using contSub_nil_right hc
  | cons l ls ih =>
    cases ls with
    | nil => simpa [joinLines] using h l (by simp)
    | cons l' ls' =>
      rw [joinLines]
      intro hc
      rcases contSub_append_cases hc with h1 | h2 | ⟨p₁, p₂, hp, hp₁, hp₂, _, hsw⟩
      · exact h l (by simp) h1
      · rcases contSub_cons_iff.mp h2 with hsw | h3
        · obtain ⟨v, hv⟩ := hsw
          simp at hv
        · exact ih (fun m hm => h m (List.mem_cons_of_mem l hm)) h3
      · obtain ⟨rfl, rfl⟩ := pair_split hp.symm hp₁ hp₂
        obtain ⟨v, hv⟩ := hsw
        simp at hv

theorem joinLines_head_ws {ls : List (List Char)} (h : ∀ l ∈ ls, Stripped l)
    {c : Char} {t : List Char} (hc : joinLines ls = c :: t) (hws : isPyWs c = true) :
    c = '\n' := by
  induction ls with
  | nil => simp [joinLines] at hc
  | cons l ls ih =>
    cases ls with
    | nil =>
      rw [joinLines] at hc
      have := stripped_head (h l (by simp)) c t hc
      rw [this] at hws
      exact absurd hws (by simp)
    | cons l' ls' =>
      rw [joinLines] at hc
      cases l with
      | nil =>
        rw [List.nil_append] at hc
        injection hc with h1 _
        exact h1.symm
      | cons a l0 =>
        rw [List.cons_append] at hc
        injection hc with h1 _
        have hh := stripped_head (h (a :: l0) (by simp)) a l0 rfl
        rw [← h1, hh] at hws
        exact absurd hws (by simp)

theorem afterNlOk_joinLines {ls : List (List Char)}
    (h : ∀ l ∈ ls, Stripped l ∧ '\n' ∉ l) : AfterNlOk (joinLines ls) := by
  induction ls with
  | nil => intro c _ _ hc; simpa using contSub_nil_right hc
  | cons l ls ih =>
    cases ls with
    | nil =>
      intro c _ _ hc
      rw [joinLines] at hc
      exact not_contSub_of_not_mem (by simp) (h l (by simp)).2 hc
    | cons l' ls' =>
      intro c hws hnl hc
      rw [joinLines] at hc
      rcases contSub_append_cases hc with h1 | h2 | ⟨p₁, p₂, hp, hp₁, hp₂, hew, hsw⟩
      · exact not_contSub_of_not_mem (by simp) (h l (by simp)).2 h1
      · rcases contSub_cons_iff.mp h2 with hsw | h3
        · rcases startsWith_cons_iff.mp hsw with habs | ⟨q, hq, hq2⟩
          · simp at habs
          · injection hq with _ hq1
            subst hq1
            obtain ⟨v, hv⟩ := hq2
            simp only [List.singleton_append] at hv
            have := joinLines_head_ws (fun m hm => (h m (List.mem_cons_of_mem l hm)).1) hv hws
            exact hnl this
        · exact ih (fun m hm => h m (List.mem_cons_of_mem l hm)) c hws hnl h3
      · obtain ⟨rfl, rfl⟩ := pair_split hp.symm hp₁ hp₂
        obtain ⟨u, hu⟩ := hew
        exact (h l (by simp)).2 (hu ▸ (by simp : '\n' ∈ u ++ ['\n']))

theorem beforeNlOk_joinLines {ls : List (List Char)}
    (h : ∀ l ∈ ls, Stripped l ∧ '\n' ∉ l) : BeforeNlOk (joinLines ls) := by
  induction ls with
  | nil => intro c _ _ hc; simpa using contSub_nil_right hc
  | cons l ls ih =>
    cases ls with
    | nil =>
      intro c _ _ hc
      rw [joinLines] at hc
      exact not_contSub_of_not_mem (by simp) (h l (by simp)).2 hc
    | cons l' ls' =>
      intro c hws hnl hc
      rw [joinLines] at hc
      rcases contSub_append_cases hc with h1 | h2 | ⟨p₁, p₂, hp, hp₁, hp₂, hew, hsw⟩
      · exact not_contSub_of_not_mem (by simp) (h l (by simp)).2 h1
      · rcases contSub_cons_iff.mp h2 with hsw | h3
        · rcases startsWith_cons_iff.mp hsw with habs | ⟨q, hq, hq2⟩
          · simp at habs
          · injection hq with hq0 _
            exact hnl hq0
        · exact ih (fun m hm => h m (List.mem_cons_of_mem l hm)) c hws hnl h3
      · obtain ⟨rfl, rfl⟩ := pair_split hp.symm hp₁ hp₂
        obtain ⟨u, hu⟩ := hew
        have := stripped_last (h l (by simp)).1 u c hu
        rw [this] at hws
        exact absurd hws (by simp)

/-! ## Lemmas about `collapseSpaces` -/

theorem collapse_head (x : Char) (r : List Char) :
    ∃ t, collapseSpaces (x :: r) = x :: t := by
  induction r generalizing x with
  | nil => exact ⟨[], rfl⟩
  | cons d r2 ih =>
    by_cases hxd : x = ' ' ∧ d = ' '
    · obtain ⟨t, ht⟩ := ih d
      rw [collapseSpaces, if_pos hxd, ht]
      exact ⟨t, by rw [hxd.1, hxd.2]⟩
    · exact ⟨collapseSpaces (d :: r2), by rw [collapseSpaces, if_neg hxd]⟩

theorem collapse_noDS (s : List Char) : NoDoubleSpace (collapseSpaces s) := by
  induction s with
  | nil => exact fun hc => by simpa using contSub_nil_right hc
  | cons c rest ih =>
    cases rest with
    | nil =>
      intro hc
      have := contSub_length hc
      simp [collapseSpaces] at this
    | cons d r2 =>
      by_cases hcd : c = ' ' ∧ d = ' '
      · rw [collapseSpaces, if_pos hcd]
        exact ih
      · rw [collapseSpaces, if_neg hcd]
        intro hc
        rcases contSub_cons_iff.mp hc with hsw | h2
        · rcases startsWith_cons_iff.mp hsw with habs | ⟨q, hq, hq2⟩
          · simp at habs
          · injection hq with hq0 hq1
            subst hq1
            obtain ⟨t, ht⟩ := collapse_head d r2
            obtain ⟨v, hv⟩ := hq2
            rw [ht] at hv
            simp only [List.singleton_append] at hv
            injection hv with hd _
            exact hcd ⟨hq0.symm, hd⟩
        · exact ih h2

theorem collapse_id {s : List Char} (h : NoDoubleSpace s) : collapseSpaces s = s := by
  induction s with
  | nil => rfl
  | cons c rest ih =>
    cases rest with
    | nil => rfl
    | cons d r2 =>
      by_cases hcd : c = ' ' ∧ d = ' '
      · exact absurd ⟨[], r2, by simp [hcd.1, hcd.2]⟩ h
      · rw [collapseSpaces, if_neg hcd, ih (fun hc => h (hc.cons_of c))]

/-! ## Lemmas about `WsDel` -/

theorem wsDel_refl (s : List Char) : WsDel s s := by
  induction s with
  | nil => exact .nil
  | cons c s ih => exact .keep c ih

theorem wsDel_append {a b c d : List Char} (h₁ : WsDel a b) (h₂ : WsDel c d) :
    WsDel (a ++ c) (b ++ d) := by
  induction h₁ with
  | nil => simpa using h₂
  | keep x _ ih => exact .keep x ih
  | del hx _ ih => exact .del hx ih

theorem wsDel_all_del {w : List Char} (h : AllWs w) : WsDel w [] := by
  induction w with
  | nil => exact .nil
  | cons c w ih =>
    exact .del (h c (by simp)) (ih (fun x hx => h x (List.mem_cons_of_mem c hx)))

theorem wsDel_collapse (s : List Char) : WsDel s (collapseSpaces s) := by
  induction s with
  | nil => exact .nil
  | cons c rest ih =>
    cases rest with
    | nil => exact .keep c .nil
    | cons d r2 =>
      by_cases hcd : c = ' ' ∧ d = ' '
      · rw [collapseSpaces, if_pos hcd]
        exact .del (by rw [hcd.1]; decide) ih
      · rw [collapseSpaces, if_neg hcd]
        exact .keep c ih

theorem wsDel_stripStr (s : List Char) : WsDel s (stripStr s) := by
  obtain ⟨u, v, hs, hu, hv⟩ := stripStr_slice s
  have h := wsDel_append (wsDel_all_del hu)
    (wsDel_append (wsDel_refl (stripStr s)) (wsDel_all_del hv))
  have h2 : WsDel (u ++ stripStr s ++ v) (stripStr s) := by simpa using h
  nth_rewrite 1 [hs]
  exact h2

theorem wsDel_joinLines {ls ls' : List (List Char)} (h : List.Forall₂ WsDel ls ls') :
    WsDel (joinLines ls) (joinLines ls') := by
  induction h with
  | nil => exact .nil
  | @cons l m t t' hlm htail ih =>
    cases htail with
    | nil => simpa [joinLines] using hlm
    | @cons l₁ m₁ t₁ t₁' h₁ h₂ =>
      rw [joinLines, joinLines]
      exact wsDel_append hlm (.keep '\n' ih)

theorem forall₂_wsDel_stripStr (ls : List (List Char)) :
    List.Forall₂ WsDel ls (ls.map stripStr) := by
  induction ls with
  | nil => simp
  | cons l ls ih => exact List.Forall₂.cons (wsDel_stripStr l) ih

theorem wsDel_stripLines (s : List Char) : WsDel s (stripLines s) := by
  have h := wsDel_joinLines (forall₂_wsDel_stripStr (lines s))
  rw [joinLines_lines s] at h
  exact h

theorem startsWith_nil_right {p : List Char} (h : StartsWith p []) : p = [] := by
  obtain ⟨v, hv⟩ := h
  exact (List.append_eq_nil.mp hv.symm).1

theorem wsDel_lift_sw {s t : List Char} (h : WsDel s t) :
    ∀ p, StartsWith p t → ∃ q, StartsWith q s ∧ WsDel q p := by
  induction h with
  | nil =>
    intro p hp
    rw [startsWith_nil_right hp]
    exact ⟨[], ⟨[], rfl⟩, .nil⟩
  | @keep c s' t' _ ih =>
    intro p hp
    rcases startsWith_cons_iff.mp hp with rfl | ⟨q', rfl, hq'⟩
    · exact ⟨[], ⟨c :: s', rfl⟩, .nil⟩
    · obtain ⟨q, hq, hwd⟩ := ih q' hq'
      obtain ⟨v, hv⟩ := hq
      exact ⟨c :: q, ⟨v, by simp [hv]⟩, .keep c hwd⟩
  | @del c s' t' hc _ ih =>
    intro p hp
    obtain ⟨q, hq, hwd⟩ := ih p hp
    obtain ⟨v, hv⟩ := hq
    exact ⟨c :: q, ⟨v, by simp [hv]⟩, .del hc hwd⟩

theorem wsDel_lift_contSub {s t : List Char} (h : WsDel s t) :
    ∀ p, ContSub p t → ∃ q, ContSub q s ∧ WsDel q p := by
  induction h with
  | nil =>
    intro p hp
    rw [contSub_nil_right hp]
    exact ⟨[], ⟨[], [], rfl⟩, .nil⟩
  | @keep c s' t' hst ih =>
    intro p hp
    rcases contSub_cons_iff.mp hp with hsw | hcs
    · obtain ⟨q, hq, hwd⟩ := wsDel_lift_sw (.keep c hst) p hsw
      exact ⟨q, ContSub.of_startsWith hq, hwd⟩
    · obtain ⟨q, hq, hwd⟩ := ih p hcs
      exact ⟨q, hq.cons_of c, hwd⟩
  | @del c s' t' hc _ ih =>
    intro p hp
    obtain ⟨q, hq, hwd⟩ := ih p hp
    exact ⟨q, hq.cons_of c, hwd⟩

theorem wsDel_single_nl {s t : List Char} (h : WsDel s t) (ht : t = ['\n']) :
    ∃ w r, s = w ++ '\n' :: r ∧ AllWs w := by
  induction h with
  | nil => simp at ht
  | @keep c s' t' _ _ =>
    injection ht with h1 h2
    subst h1
    exact ⟨[], s', rfl, by intro x hx; simp at hx⟩
  | @del c s' t' hc _ ih =>
    obtain ⟨w, r, hs, hw⟩ := ih ht
    refine ⟨c :: w, r, by simp [hs], ?_⟩
    intro x hx
    rcases List.mem_cons.mp hx with rfl | hx
    · exact hc
    · exact hw x hx

theorem wsDel_nl_append {s t : List Char} (h : WsDel s t) :
    ∀ u, t = u ++ ['\n'] → u ≠ [] → AllWs u →
      ∃ g r, s = g ++ '\n' :: r ∧ g ≠ [] ∧ AllWs g := by
  induction h with
  | nil =>
    intro u ht hu _
    exact absurd (List.append_eq_nil.mp ht.symm).1 hu
  | @keep c s' t' hst ih =>
    intro u ht hu huw
    cases u with
    | nil => exact absurd rfl hu
    | cons u₀ u' =>
      rw [List.cons_append] at ht
      injection ht with h1 h2
      subst h1
      cases u' with
      | nil =>
        obtain ⟨w, r, hs, hw⟩ := wsDel_single_nl hst (by simpa using h2)
        refine ⟨c :: w, r, by simp [hs], by simp, ?_⟩
        intro x hx
        rcases List.mem_cons.mp hx with rfl | hx
        · exact huw x (by simp)
        · exact hw x hx
      | cons u₁ u'' =>
        obtain ⟨g, r, hs, hg, hgw⟩ := ih (u₁ :: u'') h2 (by simp)
          (fun x hx => huw x (List.mem_cons_of_mem c hx))
        refine ⟨c :: g, r, by simp [hs], by simp, ?_⟩
        intro x hx
        rcases List.mem_cons.mp hx with rfl | hx
        · exact huw x (by simp)
        · exact hgw x hx
  | @del c s' t' hc _ ih =>
    intro u ht hu huw
    obtain ⟨g, r, hs, hg, hgw⟩ := ih u ht hu huw
    refine ⟨c :: g, r, by simp [hs], by simp, ?_⟩
    intro x hx
    rcases List.mem_cons.mp hx with rfl | hx
    · exact hc
    · exact hgw x hx

theorem wsDel_gap {q t : List Char} (h : WsDel q t) :
    ∀ u, t = '\n' :: u ++ ['\n'] → u ≠ [] → AllWs u →
      ∃ g, g ≠ [] ∧ AllWs g ∧ ContSub ('\n' :: g ++ ['\n']) q := by
  induction h with
  | nil => intro u ht _ _; simp at ht
  | @keep c s' t' hst ih =>
    intro u ht hu huw
    injection ht with h1 h2
    subst h1
    obtain ⟨g, r, hs, hg, hgw⟩ := wsDel_nl_append hst u h2 hu huw
    refine ⟨g, hg, hgw, ?_⟩
    refine ContSub.of_startsWith ⟨r, ?_⟩
    simp [hs]
  | @del c s' t' hc _ ih =>
    intro u ht hu huw
    obtain ⟨g, hg, hgw, hcs⟩ := ih u ht hu huw
    exact ⟨g, hg, hgw, hcs.cons_of c⟩

theorem wsDel_nlGaps {s t : List Char} (h : WsDel s t) (hs : NlGapsOk s) : NlGapsOk t := by
  intro u hu huw hcontra
  obtain ⟨q, hcsq, hwdq⟩ := wsDel_lift_contSub h _ hcontra
  obtain ⟨g, hg, hgw, hcpat⟩ := wsDel_gap hwdq u rfl hu huw
  exact hs g hg hgw (hcpat.trans hcsq)

/-! ## Lemmas about `sub1` -/

theorem not_mem_of_contains_false {l : List Char} {c : Char}
    (h : l.contains c = false) : c ∉ l := by
  intro hm
  have ht : l.contains c = true := List.elem_iff.mpr hm
  rw [ht] at h
  exact absurd h (by simp)

theorem contains_true_of_mem {l : List Char} {c : Char} (h : c ∈ l) :
    l.contains c = true := List.elem_iff.mpr h

theorem mem_of_mem_takeWhileWs {l : List Char} {c : Char}
    (h : c ∈ l.takeWhile isPyWs) : c ∈ l := by
  have := List.takeWhile_append_dropWhile isPyWs l
  rw [← this]
  exact List.mem_append.mpr (Or.inl h)

theorem drop_takeWhile_length (p : Char → Bool) (l : List Char) :
    l.drop (l.takeWhile p).length = l.dropWhile p := by
  induction l with
  | nil => rfl
  | cons a r ih =>
    by_cases ha : p a
    · rw [List.takeWhile_cons_of_pos ha, List.dropWhile_cons_of_pos ha]
      simpa using ih
    · rw [List.takeWhile_cons_of_neg ha, List.dropWhile_cons_of_neg ha]
      rfl

theorem takeWhile_dropWhile_nil (p : Char → Bool) (l : List Char) :
    (l.dropWhile p).takeWhile p = [] := by
  rcases h : l.dropWhile p with _ | ⟨c, r⟩
  · rfl
  · have hc : p c = false := by
      induction l with
      | nil => simp at h
      | cons a r2 ih =>
        by_cases ha : p a
        · rw [List.dropWhile_cons_of_pos ha] at h
          exact ih h
        · rw [List.dropWhile_cons_of_neg ha] at h
          injection h with h1 _
          rw [← h1]
          simpa using ha
    rw [List.takeWhile_cons_of_neg (by simp [hc])]

theorem takeWhile_append_of_allWs {w x : List Char} (hw : AllWs w) :
    (w ++ x).takeWhile isPyWs = w ++ x.takeWhile isPyWs := by
  induction w with
  | nil => rfl
  | cons a w ih =>
    rw [List.cons_append, List.takeWhile_cons_of_pos (hw a (by simp))]
    rw [ih (fun c hc => hw c (List.mem_cons_of_mem a hc))]
    rfl

theorem afterLastNl_subset {l : List Char} {c : Char} (h : c ∈ afterLastNl l) : c ∈ l := by
  induction l with
  | nil => simp [afterLastNl] at h
  | cons a r ih =>
    rw [afterLastNl] at h
    split at h
    · exact List.mem_cons_of_mem a h
    · exact List.mem_cons_of_mem a (ih h)

theorem afterLastNl_no_nl (l : List Char) : '\n' ∉ afterLastNl l := by
  induction l with
  | nil => simp [afterLastNl]
  | cons a r ih =>
    rw [afterLastNl]
    split
    · rename_i hcond
      intro hm
      exact hcond.2 (contains_true_of_mem hm)
    · exact ih

theorem afterLastNl_allWs {l : List Char} (h : AllWs l) : AllWs (afterLastNl l) :=
  fun c hc => h c (afterLastNl_subset hc)

theorem afterLastNl_length_lt {l : List Char} (h : l.contains '\n' = true) :
    (afterLastNl l).length < l.length := by
  induction l with
  | nil => simp at h
  | cons a r ih =>
    rw [afterLastNl]
    split
    · simp
    · rename_i hcond
      have hr : r.contains '\n' = true := by
        by_cases ha : a = '\n'
        · by_cases hrc : r.contains '\n' = true
          · exact hrc
          · exact absurd ⟨ha, by simpa using hrc⟩ hcond
        · have := List.elem_iff.mp h
          rcases List.mem_cons.mp this with h1 | h1
          · exact absurd h1.symm ha
          · exact contains_true_of_mem h1
      have := ih hr
      simp only [List.length_cons]
      omega

theorem sub1F_nil (fuel : Nat) : sub1F fuel [] = [] := by
  cases fuel <;> rfl

theorem sub1F_zero (s : List Char) : sub1F 0 s = s := by
  cases s <;> rfl

theorem sub1F_cons_of_ne {fuel : Nat} {c : Char} {rest : List Char} (hc : c ≠ '\n') :
    sub1F (fuel + 1) (c :: rest) = c :: sub1F fuel rest := by
  simp [sub1F, hc]

theorem sub1F_cons_nl_nomatch {fuel : Nat} {rest : List Char}
    (h : (rest.takeWhile isPyWs).contains '\n' = false) :
    sub1F (fuel + 1) ('\n' :: rest) = '\n' :: sub1F fuel rest := by
  simp [sub1F, not_mem_of_contains_false h]

theorem sub1F_cons_nl_match {fuel : Nat} {rest : List Char}
    (h : (rest.takeWhile isPyWs).contains '\n' = true) :
    sub1F (fuel + 1) ('\n' :: rest) =
      '\n' :: '\n' :: sub1F fuel
        (afterLastNl (rest.takeWhile isPyWs) ++ rest.drop (rest.takeWhile isPyWs).length) := by
  simp [sub1F, List.elem_iff.mp h]

/-- Inside the output of `sub1F` on a string whose leading whitespace run has
no `'\n'`, no all-whitespace block ending in `'\n'` can start at the head. -/
theorem sub1F_no_nl_sw : ∀ fuel (rest : List Char), rest.length ≤ fuel →
    (rest.takeWhile isPyWs).contains '\n' = false →
    ∀ u, AllWs u → ¬ StartsWith (u ++ ['\n']) (sub1F fuel rest) := by
  intro fuel
  induction fuel with
  | zero =>
    intro rest hlen _ u _ hsw
    cases rest with
    | nil =>
      rw [sub1F_nil] at hsw
      obtain ⟨v, hv⟩ := hsw
      have hl := congrArg List.length hv
      simp only [List.length_nil, List.length_append, List.length_cons] at hl
      omega
    | cons a r => simp at hlen
  | succ fuel ih =>
    intro rest hlen hrun u hu hsw
    cases rest with
    | nil =>
      rw [sub1F_nil] at hsw
      obtain ⟨v, hv⟩ := hsw
      have hl := congrArg List.length hv
      simp only [List.length_nil, List.length_append, List.length_cons] at hl
      omega
    | cons a r2 =>
      by_cases ha : isPyWs a
      · rw [List.takeWhile_cons_of_pos ha] at hrun
        have ha' : a ≠ '\n' := by
          intro hh
          rw [show ((a :: r2.takeWhile isPyWs).contains '\n') =
            ((('\n' : Char) == a) || (r2.takeWhile isPyWs).contains '\n') from rfl] at hrun
          rw [hh] at hrun
          simp at hrun
        have h2 : (r2.takeWhile isPyWs).contains '\n' = false := by
          rw [show ((a :: r2.takeWhile isPyWs).contains '\n') =
            ((('\n' : Char) == a) || (r2.takeWhile isPyWs).contains '\n') from rfl] at hrun
          exact (Bool.or_eq_false_iff.mp hrun).2
        rw [sub1F_cons_of_ne ha'] at hsw
        rcases startsWith_cons_iff.mp hsw with habs | ⟨q, hq, hq2⟩
        · exact absurd habs (by simp)
        · cases u with
          | nil =>
            rw [List.nil_append] at hq
            injection hq with h1 _
            exact ha' h1.symm
          | cons c u' =>
            rw [List.cons_append] at hq
            injection hq with h1 h2'
            rw [← h2'] at hq2
            exact ih r2 (by simpa using hlen) h2 u'
              (fun x hx => hu x (List.mem_cons_of_mem c hx)) hq2
      · have ha' : a ≠ '\n' := by
          intro hh
          rw [hh] at ha
          exact ha (by decide)
        rw [sub1F_cons_of_ne ha'] at hsw
        rcases startsWith_cons_iff.mp hsw with habs | ⟨q, hq, hq2⟩
        · exact absurd habs (by simp)
        · cases u with
          | nil =>
            rw [List.nil_append] at hq
            injection hq with h1 _
            rw [← h1] at ha
            exact ha (by decide)
          | cons c u' =>
            rw [List.cons_append] at hq
            injection hq with h1 _
            rw [← h1] at ha
            exact ha (hu c (by simp))

/-- The argument rescanned after a match has a `'\n'`-free leading
whitespace run. -/
theorem takeWhile_match_arg (rest : List Char) :
    ((afterLastNl (rest.takeWhile isPyWs) ++
      rest.drop (rest.takeWhile isPyWs).length).takeWhile isPyWs).contains '\n' = false := by
  rw [drop_takeWhile_length]
  rw [takeWhile_append_of_allWs (afterLastNl_allWs (allWs_takeWhile rest))]
  rw [takeWhile_dropWhile_nil, List.append_nil]
  cases hcon : (afterLastNl (rest.takeWhile isPyWs)).contains '\n' with
  | false => rfl
  | true => exact absurd (List.elem_iff.mp hcon) (afterLastNl_no_nl _)

theorem match_arg_length {rest : List Char}
    (h : (rest.takeWhile isPyWs).contains '\n' = true) :
    (afterLastNl (rest.takeWhile isPyWs) ++
      rest.drop (rest.takeWhile isPyWs).length).length < rest.length := by
  have h1 := afterLastNl_length_lt h
  have h2 : (rest.takeWhile isPyWs).length ≤ rest.length :=
    (List.takeWhile_sublist isPyWs).length_le
  have h3 : 0 < (rest.takeWhile isPyWs).length := by
    cases htw : rest.takeWhile isPyWs with
    | nil => rw [htw] at h; simp at h
    | cons a r => simp [htw]
  rw [List.length_append, List.length_drop]
  omega

/-- Output invariant of `sub1`: between two `'\n'`s with only whitespace in
between, the gap is empty. -/
theorem nlGaps_sub1F : ∀ fuel (s : List Char), s.length ≤ fuel → NlGapsOk (sub1F fuel s) := by
  intro fuel
  induction fuel with
  | zero =>
    intro s hlen
    cases s with
    | nil =>
      intro u _ _ hc
      rw [sub1F_nil] at hc
      have := contSub_nil_right hc
      simp at this
    | cons a r => simp at hlen
  | succ fuel ih =>
    intro s hlen
    cases s with
    | nil =>
      intro u _ _ hc
      rw [sub1F_nil] at hc
      have := contSub_nil_right hc
      simp at this
    | cons c rest =>
      have hrl : rest.length ≤ fuel := by
        simp only [List.length_cons] at hlen
        omega
      by_cases hc : c = '\n'
      · subst hc
        cases hm : (rest.takeWhile isPyWs).contains '\n' with
        | false =>
          rw [sub1F_cons_nl_nomatch hm]
          intro u hu huw hcon
          rcases contSub_cons_iff.mp hcon with hsw | hcs
          · rcases startsWith_cons_iff.mp hsw with habs | ⟨q, hq, hq2⟩
            · simp at habs
            · injection hq with _ hq1
              rw [← hq1] at hq2
              exact sub1F_no_nl_sw fuel rest hrl hm u huw hq2
          · exact ih rest hrl u hu huw hcs
        | true =>
          rw [sub1F_cons_nl_match hm]
          set arg := afterLastNl (rest.takeWhile isPyWs) ++
            rest.drop (rest.takeWhile isPyWs).length with harg
          have hargl : arg.length ≤ fuel := by
            rw [harg]
            have := match_arg_length hm
            omega
          have hargtw : (arg.takeWhile isPyWs).contains '\n' = false := by
            rw [harg]
            exact takeWhile_match_arg rest
          intro u hu huw hcon
          rcases contSub_cons_iff.mp hcon with hsw | hcs
          · rcases startsWith_cons_iff.mp hsw with habs | ⟨q, hq, hq2⟩
            · simp at habs
            · injection hq with _ hq1
              rw [← hq1] at hq2
              cases u with
              | nil => exact hu rfl
              | cons c₀ u₂ =>
                rcases startsWith_cons_iff.mp hq2 with habs2 | ⟨q₂, hq₂, hq₂2⟩
                · simp at habs2
                · injection hq₂ with _ hq₂1
                  rw [← hq₂1] at hq₂2
                  exact sub1F_no_nl_sw fuel arg hargl hargtw u₂
                    (fun x hx => huw x (List.mem_cons_of_mem c₀ hx)) hq₂2
          · rcases contSub_cons_iff.mp hcs with hsw2 | hcs2
            · rcases startsWith_cons_iff.mp hsw2 with habs | ⟨q, hq, hq2⟩
              · simp at habs
              · injection hq with _ hq1
                rw [← hq1] at hq2
                exact sub1F_no_nl_sw fuel arg hargl hargtw u huw hq2
            · exact ih arg hargl u hu huw hcs2
      · rw [sub1F_cons_of_ne hc]
        intro u hu huw hcon
        rcases contSub_cons_iff.mp hcon with hsw | hcs
        · rcases startsWith_cons_iff.mp hsw with habs | ⟨q, hq, hq2⟩
          · simp at habs
          · injection hq with h1 _
            exact hc h1.symm
        · exact ih rest hrl u hu huw hcs

theorem nlGaps_sub1 (s : List Char) : NlGapsOk (sub1 s) :=
  nlGaps_sub1F s.length s le_rfl

/-- `sub1` fixes any string in which whitespace after a `'\n'` is only more
`'\n'`s, and no three `'\n'`s are adjacent. -/
theorem sub1F_id : ∀ fuel (s : List Char), s.length ≤ fuel →
    AfterNlOk s → NoTripleNl s → sub1F fuel s = s := by
  intro fuel
  induction fuel with
  | zero => intro s _ _ _; exact sub1F_zero s
  | succ fuel ih =>
    intro s hlen hA hT
    cases s with
    | nil => exact sub1F_nil _
    | cons c rest =>
      have hrl : rest.length ≤ fuel := by
        simp only [List.length_cons] at hlen
        omega
      have hA' : AfterNlOk rest := fun x hws hnl hcc => hA x hws hnl (hcc.cons_of c)
      have hT' : NoTripleNl rest := fun hcc => hT (hcc.cons_of c)
      by_cases hc : c = '\n'
      · subst hc
        cases rest with
        | nil =>
          have heq : sub1F (fuel + 1) ['\n'] = '\n' :: sub1F fuel [] :=
            sub1F_cons_nl_nomatch (by decide)
          rw [heq, sub1F_nil]
        | cons x r3 =>
          by_cases hx : isPyWs x
          · by_cases hxn : x = '\n'
            · subst hxn
              have htw3 : r3.takeWhile isPyWs = [] := by
                cases r3 with
                | nil => rfl
                | cons y r4 =>
                  by_cases hy : isPyWs y
                  · by_cases hyn : y = '\n'
                    · exact absurd ⟨[], r4, by simp [hyn]⟩ hT
                    · exact absurd ⟨['\n'], r4, by simp⟩ (hA y hy hyn)
                  · rw [List.takeWhile_cons_of_neg (by simpa using hy)]
              have htw : (('\n' :: r3).takeWhile isPyWs) = ['\n'] := by
                rw [List.takeWhile_cons_of_pos (by decide), htw3]
              have hcon : ((('\n' :: r3).takeWhile isPyWs)).contains '\n' = true := by
                rw [htw]; rfl
              rw [sub1F_cons_nl_match hcon, htw]
              have hafter : afterLastNl ['\n'] = [] := by decide
              have hdrop : ('\n' :: r3).drop (['\n'] : List Char).length = r3 := rfl
              rw [hafter, hdrop, List.nil_append]
              have h3 : r3.length ≤ fuel := by
                simp only [List.length_cons] at hlen
                omega
              have hA3 : AfterNlOk r3 :=
                fun x hws hnl hcc => hA x hws hnl ((hcc.cons_of '\n').cons_of '\n')
              have hT3 : NoTripleNl r3 := fun hcc => hT ((hcc.cons_of '\n').cons_of '\n')
              rw [ih r3 h3 hA3 hT3]
            · exact absurd ⟨[], r3, by simp⟩ (hA x hx hxn)
          · have htw : ((x :: r3).takeWhile isPyWs) = [] := by
              rw [List.takeWhile_cons_of_neg (by simpa using hx)]
            have hcon : (((x :: r3).takeWhile isPyWs)).contains '\n' = false := by
              rw [htw]; rfl
            rw [sub1F_cons_nl_nomatch hcon]
            rw [ih (x :: r3) hrl hA' hT']
      · rw [sub1F_cons_of_ne hc]
        rw [ih rest hrl hA' hT']

theorem sub1_id {s : List Char} (hA : AfterNlOk s) (hT : NoTripleNl s) : sub1 s = s :=
  sub1F_id s.length s le_rfl hA hT

theorem mem_sub1F : ∀ fuel (s : List Char) (c : Char), c ∈ sub1F fuel s → c ∈ s ∨ c = '\n' := by
  intro fuel
  induction fuel with
  | zero =>
    intro s c h
    rw [sub1F_zero] at h
    exact Or.inl h
  | succ fuel ih =>
    intro s c h
    cases s with
    | nil =>
      rw [sub1F_nil] at h
      simp at h
    | cons a rest =>
      by_cases ha : a = '\n'
      · subst ha
        cases hm : (rest.takeWhile isPyWs).contains '\n' with
        | false =>
          rw [sub1F_cons_nl_nomatch hm] at h
          rcases List.mem_cons.mp h with rfl | h
          · exact Or.inr rfl
          · rcases ih rest c h with h | h
            · exact Or.inl (List.mem_cons_of_mem _ h)
            · exact Or.inr h
        | true =>
          rw [sub1F_cons_nl_match hm] at h
          rcases List.mem_cons.mp h with rfl | h
          · exact Or.inr rfl
          · rcases List.mem_cons.mp h with rfl | h
            · exact Or.inr rfl
            · rcases ih _ c h with h | h
              · rcases List.mem_append.mp h with h | h
                · exact Or.inl (List.mem_cons_of_mem _
                    (mem_of_mem_takeWhileWs (afterLastNl_subset h)))
                · exact Or.inl (List.mem_cons_of_mem _ (List.mem_of_mem_drop h))
              · exact Or.inr h
      · rw [sub1F_cons_of_ne ha] at h
        rcases List.mem_cons.mp h with rfl | h
        · exact Or.inl (by simp)
        · rcases ih rest c h with h | h
          · exact Or.inl (List.mem_cons_of_mem _ h)
          · exact Or.inr h

theorem mem_sub1 {s : List Char} {c : Char} (h : c ∈ sub1 s) : c ∈ s ∨ c = '\n' :=
  mem_sub1F s.length s c h

/-! ## The fixed-point argument for `limpar_texto` -/

theorem wsDel_subset {s t : List Char} (h : WsDel s t) : ∀ c ∈ t, c ∈ s := by
  induction h with
  | nil => intro c hc; simp at hc
  | keep a _ ih =>
    intro c hc
    rcases List.mem_cons.mp hc with rfl | hc
    · simp
    · exact List.mem_cons_of_mem a (ih c hc)
  | del _ _ ih => intro c hc; exact List.mem_cons_of_mem _ (ih c hc)

theorem removeCtl_id {s : List Char} (h : NoCtl s) : removeCtl s = s := by
  unfold removeCtl
  refine List.filter_eq_self.mpr ?_
  intro a ha
  simp [h a ha]

theorem map_id_of_mem {f : List Char → List Char} {l : List (List Char)}
    (h : ∀ a ∈ l, f a = a) : l.map f = l := by
  induction l with
  | nil => rfl
  | cons a l ih =>
    rw [List.map_cons, h a (by simp), ih (fun x hx => h x (List.mem_cons_of_mem a hx))]

theorem noTripleNl_of_nlGaps {s : List Char} (h : NlGapsOk s) : NoTripleNl s := by
  intro hc
  refine h ['\n'] (by simp) ?_ hc
  intro c hcm
  rcases List.mem_singleton.mp hcm with rfl
  decide

/-- Every line of `s` is stripped when no whitespace other than `'\n'` is
adjacent to a `'\n'` and the ends of `s` carry no whitespace except `'\n'`. -/
theorem lines_stripped_of_flat : ∀ n (s : List Char), s.length ≤ n →
    AfterNlOk s → BeforeNlOk s →
    (∀ c r, s = c :: r → isPyWs c = false ∨ c = '\n') →
    (∀ u d, s = u ++ [d] → isPyWs d = false ∨ d = '\n') →
    ∀ l ∈ lines s, Stripped l := by
  intro n
  induction n with
  | zero =>
    intro s hlen _ _ _ _ l hl
    have : s = [] := by
      cases s with
      | nil => rfl
      | cons a r => simp at hlen
    subst this
    simp [lines] at hl
    subst hl
    rfl
  | succ n ih =>
    intro s hlen hA hB hHead hLast l hl
    rcases split_first_nl s with hno | ⟨l₀, r, rfl, hl₀⟩
    · rw [lines_of_no_nl hno] at hl
      rcases List.mem_singleton.mp hl with rfl
      refine stripStr_eq_self ?_ ?_
      · intro c r hr
        rcases hHead c r hr with h | h
        · exact h
        · exact absurd (hr ▸ (h ▸ List.mem_cons_self c r)) hno
      · intro u d hr
        rcases hLast u d hr with h | h
        · exact h
        · exact absurd (hr ▸ (h ▸ (by simp : d ∈ u ++ [d]))) hno
    · rw [lines_append_nl r hl₀] at hl
      rcases List.mem_cons.mp hl with rfl | hl
      · refine stripStr_eq_self ?_ ?_
        · intro c t hr
          subst hr
          rcases hHead c (t ++ '\n' :: r) (by simp) with h | h
          · exact h
          · exact absurd (h ▸ List.mem_cons_self c t) hl₀
        · intro u d hr
          subst hr
          by_cases hdw : isPyWs d
          · by_cases hdn : d = '\n'
            · exact absurd (hdn ▸ (by simp : d ∈ u ++ [d])) hl₀
            · exact absurd ⟨u, r, by simp⟩ (hB d hdw hdn)
          · simpa using hdw
      · have hr : r.length ≤ n := by
          have := congrArg List.length (rfl : l₀ ++ '\n' :: r = l₀ ++ '\n' :: r)
          simp only [List.length_append, List.length_cons] at hlen
          omega
        refine ih r hr ?_ ?_ ?_ ?_ l hl
        · exact fun x hws hnl hcc => hA x hws hnl ((hcc.cons_of '\n').append_left l₀)
        · exact fun x hws hnl hcc => hB x hws hnl ((hcc.cons_of '\n').append_left l₀)
        · intro c r' hr'
          by_cases hcw : isPyWs c
          · by_cases hcn : c = '\n'
            · exact Or.inr hcn
            · exact absurd ⟨l₀, r', by simp [hr']⟩ (hA c hcw hcn)
          · exact Or.inl (by simpa using hcw)
        · intro u d hr'
          exact hLast (l₀ ++ '\n' :: u) d (by simp [hr'])

/-- `limpar_texto` fixes any string satisfying the normal-form predicates. -/
theorem limpar_fixed {s : List Char}
    (hA : AfterNlOk s) (hB : BeforeNlOk s) (hG : NlGapsOk s) (hD : NoDoubleSpace s)
    (hS : Stripped s) (hC : NoCtl s) : limpar_texto s = s := by
  have hT : NoTripleNl s := noTripleNl_of_nlGaps hG
  have hlines : ∀ l ∈ lines s, Stripped l := by
    refine lines_stripped_of_flat s.length s le_rfl hA hB ?_ ?_
    · intro c r hr
      exact Or.inl (stripped_head hS c r hr)
    · intro u d hr
      exact Or.inl (stripped_last hS u d hr)
  have hstriplines : stripLines s = s := by
    unfold stripLines
    rw [map_id_of_mem hlines, joinLines_lines]
  unfold limpar_texto
  rw [sub1_id hA hT, collapse_id hD, hstriplines, removeCtl_id hC]
  exact hS

/-- After one pass of `limpar_texto` on input without removed control
characters, the output satisfies all normal-form predicates. -/
theorem limpar_establishes {t : List Char} (hC : NoCtl t) :
    AfterNlOk (limpar_texto t) ∧ BeforeNlOk (limpar_texto t) ∧ NlGapsOk (limpar_texto t) ∧
      NoDoubleSpace (limpar_texto t) ∧ Stripped (limpar_texto t) ∧ NoCtl (limpar_texto t) := by
  have hG1 : NlGapsOk (sub1 t) := nlGaps_sub1 t
  have hG2 : NlGapsOk (collapseSpaces (sub1 t)) := wsDel_nlGaps (wsDel_collapse _) hG1
  set s2 := collapseSpaces (sub1 t) with hs2
  have hG3 : NlGapsOk (stripLines s2) := wsDel_nlGaps (wsDel_stripLines _) hG2
  have hD2 : NoDoubleSpace s2 := by rw [hs2]; exact collapse_noDS _
  have hlsStr : ∀ l ∈ (lines s2).map stripStr, Stripped l ∧ '\n' ∉ l := by
    intro l hl
    obtain ⟨m, hm, rfl⟩ := List.mem_map.mp hl
    exact ⟨stripStr_idem m, fun hnl => lines_no_nl s2 m hm (mem_stripStr hnl)⟩
  have hA3 : AfterNlOk (stripLines s2) := afterNlOk_joinLines hlsStr
  have hB3 : BeforeNlOk (stripLines s2) := beforeNlOk_joinLines hlsStr
  have hD3 : NoDoubleSpace (stripLines s2) := by
    refine noDS_joinLines ?_
    intro l hl
    obtain ⟨m, hm, rfl⟩ := List.mem_map.mp hl
    intro hcc
    have h1 : ContSub [' ', ' '] m := hcc.trans (contSub_stripStr m)
    have h2 : ContSub m s2 := by
      have := contSub_of_mem_joinLines hm
      rw [joinLines_lines] at this
      exact this
    exact hD2 (h1.trans h2)
  have hmem3 : ∀ c ∈ stripLines s2, c ∈ t ∨ c = '\n' ∨ c = ' ' := by
    intro c hc
    have hc2 : c ∈ s2 ∨ c = '\n' := by
      rcases mem_joinLines hc with h | ⟨l, hl, hcl⟩
      · exact Or.inr h
      · obtain ⟨m, hm, rfl⟩ := List.mem_map.mp hl
        refine Or.inl (contSub_mem ?_ (mem_stripStr hcl))
        have := contSub_of_mem_joinLines hm
        rw [joinLines_lines] at this
        exact this
    rcases hc2 with h | h
    · have h1 : c ∈ sub1 t := wsDel_subset (wsDel_collapse _) c h
      rcases mem_sub1 h1 with h2 | h2
      · exact Or.inl h2
      · exact Or.inr (Or.inl h2)
    · exact Or.inr (Or.inl h)
  have hCtl3 : NoCtl (stripLines s2) := by
    intro c hc
    rcases hmem3 c hc with h | h | h
    · exact hC c h
    · rw [h]; decide
    · rw [h]; decide
  have hrem : removeCtl (stripLines s2) = stripLines s2 := removeCtl_id hCtl3
  have hlim : limpar_texto t = stripStr (stripLines s2) := by
    unfold limpar_texto
    rw [← hs2, hrem]
  have htrans : ∀ p : List Char, ContSub p (limpar_texto t) → ContSub p (stripLines s2) := by
    intro p hp
    rw [hlim] at hp
    exact hp.trans (contSub_stripStr _)
  refine ⟨?_, ?_, ?_, ?_, ?_, ?_⟩
  · exact fun c hws hnl hcc => hA3 c hws hnl (htrans _ hcc)
  · exact fun c hws hnl hcc => hB3 c hws hnl (htrans _ hcc)
  · exact fun u hu huw hcc => hG3 u hu huw (htrans _ hcc)
  · exact fun hcc => hD3 (htrans _ hcc)
  · rw [hlim]; exact stripStr_idem _
  · intro c hc
    rw [hlim] at hc
    exact hCtl3 c (mem_stripStr hc)

/-! ## Claims C6 and C7 -/

/-- Claim C6, counterexample: `limpar_texto` does not collapse every run of
horizontal whitespace — a run of two tabs passes through unchanged, so the
output contains a run of two horizontal-whitespace characters. -/
theorem claim_C6_cex :
    limpar_texto ['a', '\t', '\t', 'b'] = ['a', '\t', '\t', 'b'] ∧
      ContSub ['\t', '\t'] (limpar_texto ['a', '\t', '\t', 'b']) ∧
      isPyWs '\t' = true ∧ removedCtl '\t' = false := by
  refine ⟨by decide, ⟨['a'], ['b'], by decide⟩, by decide, by decide⟩

/-- Claim C6 (amended): `limpar_texto` collapses runs of space characters
(not of all horizontal whitespace), and removes exactly the control
characters of the class `[\x00-\x08\x0B-\x0C\x0E-\x1F\x7F]`; consequently,
for every input containing no character of that removed class, the output
contains no two consecutive spaces, and never contains a removed control
character. -/
theorem claim_C6 (t : List Char) (h : NoCtl t) :
    NoDoubleSpace (limpar_texto t) ∧ NoCtl (limpar_texto t) :=
  ⟨(limpar_establishes h).2.2.2.1, (limpar_establishes h).2.2.2.2.2⟩

/-- Claim C6, witness at a concrete control-free input. -/
theorem claim_C6_witness :
    NoCtl ['a', ' ', ' ', '\t', 'b'] ∧
      NoDoubleSpace (limpar_texto ['a', ' ', ' ', '\t', 'b']) ∧
        NoCtl (limpar_texto ['a', ' ', ' ', '\t', 'b']) :=
  ⟨by decide, claim_C6 ['a', ' ', ' ', '\t', 'b'] (by decide)⟩

/-- Claim C7, counterexample: the Text Normalizer is not idempotent.  On
`"a \x00 b"` the first pass removes the NUL and leaves the double space
`"a  b"`; the second pass collapses it to `"a b"`. -/
theorem claim_C7_cex :
    limpar_texto (limpar_texto ['a', ' ', '\x00', ' ', 'b']) ≠
      limpar_texto ['a', ' ', '\x00', ' ', 'b'] := by decide

/-- Claim C7 (amended): for every text containing no character of the
removed control class `[\x00-\x08\x0B-\x0C\x0E-\x1F\x7F]`, applying the Text
Normalizer twice equals applying it once:
`limpar_texto (limpar_texto t) = limpar_texto t`. -/
theorem claim_C7 (t : List Char) (h : NoCtl t) :
    limpar_texto (limpar_texto t) = limpar_texto t := by
  obtain ⟨hA, hB, hG, hD, hS, hC⟩ := limpar_establishes h
  exact limpar_fixed hA hB hG hD hS hC

/-- Claim C7, witness at a concrete control-free input. -/
theorem claim_C7_witness :
    NoCtl ['a', ' ', ' ', '\n', '\n', '\n', '\t', 'b'] ∧
      limpar_texto (limpar_texto ['a', ' ', ' ', '\n', '\n', '\n', '\t', 'b']) =
        limpar_texto ['a', ' ', ' ', '\n', '\n', '\n', '\t', 'b'] :=
  ⟨by decide, claim_C7 ['a', ' ', ' ', '\n', '\n', '\n', '\t', 'b'] (by decide)⟩

/-! ## Claim C4: chunk indices are contiguous from 0 -/

theorem append_mk_indices {l : List Chunk} {c : Chunk}
    (h1 : l.map (fun x => x.indice) = List.range l.length) (hc : c.indice = l.length) :
    (l ++ [c]).map (fun x => x.indice) = List.range (l ++ [c]).length := by
  rw [List.map_append, h1, List.length_append]
  simp [hc, List.range_succ]

theorem criarStep_indices {tamanho overlap : Nat} {st : ChunkState} (sentenca : List Char)
    (h1 : st.chunks.map (fun c => c.indice) = List.range st.chunks.length)
    (h2 : st.indice = st.chunks.length) :
    ((criarStep tamanho overlap st sentenca).chunks.map (fun c => c.indice) =
      List.range (criarStep tamanho overlap st sentenca).chunks.length) ∧
      (criarStep tamanho overlap st sentenca).indice =
        (criarStep tamanho overlap st sentenca).chunks.length := by
  unfold criarStep
  by_cases hfit : st.chunk_atual.length + sentenca.length ≤ tamanho
  · rw [if_pos hfit]
    exact ⟨h1, h2⟩
  · rw [if_neg hfit]
    by_cases hemit : stripStr st.chunk_atual ≠ []
    · have hch : (st.chunks ++ [mkChunk st.indice st.chunk_atual st.sentencas]).map
          (fun c => c.indice) =
          List.range (st.chunks ++ [mkChunk st.indice st.chunk_atual st.sentencas]).length :=
        append_mk_indices h1 h2
      by_cases hseed : 0 < overlap ∧ st.sentencas ≠ []
      · rw [if_pos hseed]
        simp only [if_pos hemit]
        refine ⟨hch, ?_⟩
        simp [h2]
      · rw [if_neg hseed]
        simp only [if_pos hemit]
        refine ⟨hch, ?_⟩
        simp [h2]
    · by_cases hseed : 0 < overlap ∧ st.sentencas ≠ []
      · rw [if_pos hseed]
        simp only [if_neg hemit]
        exact ⟨h1, h2⟩
      · rw [if_neg hseed]
        simp only [if_neg hemit]
        exact ⟨h1, h2⟩

theorem fold_indices (tamanho overlap : Nat) :
    ∀ (sents : List (List Char)) (st : ChunkState),
      st.chunks.map (fun c => c.indice) = List.range st.chunks.length →
      st.indice = st.chunks.length →
      ((sents.foldl (criarStep tamanho overlap) st).chunks.map (fun c => c.indice) =
        List.range (sents.foldl (criarStep tamanho overlap) st).chunks.length) ∧
        (sents.foldl (criarStep tamanho overlap) st).indice =
          (sents.foldl (criarStep tamanho overlap) st).chunks.length := by
  intro sents
  induction sents with
  | nil => intro st h1 h2; exact ⟨h1, h2⟩
  | cons s rest ih =>
    intro st h1 h2
    obtain ⟨h1', h2'⟩ := criarStep_indices s h1 h2
    exact ih (criarStep tamanho overlap st s) h1' h2'

/-- Zeta-reduced defining equation of `criar_chunks_de`. -/
theorem criar_chunks_de_eq (sents : List (List Char)) (tamanho overlap : Nat) :
    criar_chunks_de sents tamanho overlap =
      (sents.foldl (criarStep tamanho overlap) estadoInicial).chunks ++
        (if stripStr (sents.foldl (criarStep tamanho overlap) estadoInicial).chunk_atual ≠ []
         then [mkChunk (sents.foldl (criarStep tamanho overlap) estadoInicial).indice
                (sents.foldl (criarStep tamanho overlap) estadoInicial).chunk_atual
                (sents.foldl (criarStep tamanho overlap) estadoInicial).sentencas]
         else []) := rfl

theorem criar_chunks_de_indices (sents : List (List Char)) (tamanho overlap : Nat) :
    (criar_chunks_de sents tamanho overlap).map (fun c => c.indice) =
      List.range (criar_chunks_de sents tamanho overlap).length := by
  rw [criar_chunks_de_eq]
  obtain ⟨h1, h2⟩ := fold_indices tamanho overlap sents estadoInicial (by rfl) (by rfl)
  by_cases hfin :
      stripStr ((sents.foldl (criarStep tamanho overlap) estadoInicial).chunk_atual) ≠ []
  · rw [if_pos hfin]
    exact append_mk_indices h1 h2
  · rw [if_neg hfin]
    simpa using h1

/-- Claim C4: for every text, every positive target size, every overlap and
either segmentation outcome, the chunk list produced by one pass of
`criar_chunks` has index fields forming the contiguous ascending sequence
`0, 1, …` (the `i`-th emitted chunk has index `i`). -/
theorem claim_C4 (segmentar : List Char → List (List Char)) (texto : List Char)
    (tamanho overlap : Nat) (_htam : 0 < tamanho) :
    (criar_chunks segmentar texto tamanho overlap).map (fun c => c.indice) =
      List.range (criar_chunks segmentar texto tamanho overlap).length :=
  criar_chunks_de_indices (segmentar texto) tamanho overlap

/-- Claim C4, witness: paragraph segmentation of a concrete two-paragraph
text, with a small target size forcing several chunks. -/
theorem claim_C4_witness :
    0 < 5 ∧
      (criar_chunks segmentar_em_paragrafos "aaa\n\nbbbb\n\ncc".toList 5 0).map
          (fun c => c.indice) =
        List.range (criar_chunks segmentar_em_paragrafos "aaa\n\nbbbb\n\ncc".toList 5 0).length :=
  ⟨by decide, claim_C4 segmentar_em_paragrafos "aaa\n\nbbbb\n\ncc".toList 5 0 (by decide)⟩

/-! ## Claim C3: overlap seeding of the new buffer -/

theorem overlapAcc_le (overlap : Nat) :
    ∀ (l : List (List Char)) (acc : Nat), acc ≤ overlap →
      acc + sumLens (overlapAcc overlap l acc) ≤ overlap := by
  intro l
  induction l with
  | nil => intro acc h; simpa [overlapAcc, sumLens] using h
  | cons s rest ih =>
    intro acc h
    rw [overlapAcc]
    by_cases hs : acc + s.length ≤ overlap
    · rw [if_pos hs]
      have := ih (acc + s.length) hs
      simp only [sumLens, List.map_cons, List.sum_cons] at *
      omega
    · rw [if_neg hs]
      simpa [sumLens] using h

theorem overlapAcc_elongates (overlap : Nat) :
    ∀ (l : List (List Char)) (acc : Nat), ∃ post, l = overlapAcc overlap l acc ++ post := by
  intro l
  induction l with
  | nil => intro _; exact ⟨[], rfl⟩
  | cons s rest ih =>
    intro acc
    rw [overlapAcc]
    by_cases hs : acc + s.length ≤ overlap
    · rw [if_pos hs]
      obtain ⟨post, hp⟩ := ih (acc + s.length)
      exact ⟨post, by rw [List.cons_append, ← hp]⟩
    · rw [if_neg hs]
      exact ⟨s :: rest, rfl⟩

theorem overlapAcc_stop (overlap : Nat) :
    ∀ (l : List (List Char)) (acc : Nat) (x : List Char) (post : List (List Char)),
      l = overlapAcc overlap l acc ++ x :: post →
      overlap < acc + sumLens (overlapAcc overlap l acc) + x.length := by
  intro l
  induction l with
  | nil =>
    intro acc x post h
    rw [overlapAcc] at h
    simp at h
  | cons s rest ih =>
    intro acc x post h
    rw [overlapAcc] at h ⊢
    by_cases hs : acc + s.length ≤ overlap
    · rw [if_pos hs] at h ⊢
      rw [List.cons_append] at h
      injection h with _ h2
      have := ih (acc + s.length) x post h2
      simp only [sumLens, List.map_cons, List.sum_cons]
      simp only [sumLens] at this
      omega
    · rw [if_neg hs] at h ⊢
      rw [List.nil_append] at h
      injection h with h1 _
      simp only [sumLens, List.map_nil, List.sum_nil]
      rw [← h1]
      omega

theorem overlapAcc_total (overlap : Nat) :
    ∀ (l : List (List Char)) (acc : Nat), acc + sumLens l ≤ overlap →
      overlapAcc overlap l acc = l := by
  intro l
  induction l with
  | nil => intro acc _; rfl
  | cons s rest ih =>
    intro acc h
    simp only [sumLens, List.map_cons, List.sum_cons] at h
    rw [overlapAcc, if_pos (by omega)]
    rw [ih (acc + s.length) (by simp only [sumLens]; omega)]

theorem sumLens_reverse (l : List (List Char)) : sumLens l.reverse = sumLens l := by
  simp [sumLens, List.sum_reverse]

theorem overlapTail_sum (sents : List (List Char)) (overlap : Nat) :
    sumLens (overlapTail sents overlap) ≤ overlap := by
  unfold overlapTail
  rw [sumLens_reverse]
  have := overlapAcc_le overlap sents.reverse 0 (by omega)
  omega

theorem overlapTail_suffix (sents : List (List Char)) (overlap : Nat) :
    ∃ pre, sents = pre ++ overlapTail sents overlap := by
  obtain ⟨post, hp⟩ := overlapAcc_elongates overlap sents.reverse 0
  refine ⟨post.reverse, ?_⟩
  have h2 := congrArg List.reverse hp
  simpa [overlapTail] using h2

theorem overlapTail_stop (sents : List (List Char)) (overlap : Nat) :
    ∀ pre x, sents = pre ++ x :: overlapTail sents overlap →
      overlap < x.length + sumLens (overlapTail sents overlap) := by
  intro pre x h
  have h2 := congrArg List.reverse h
  rw [List.reverse_append, List.reverse_cons] at h2
  have h4 : (overlapTail sents overlap).reverse = overlapAcc overlap sents.reverse 0 := by
    simp [overlapTail]
  have h3 : sents.reverse = overlapAcc overlap sents.reverse 0 ++ x :: pre.reverse := by
    rw [← h4, h2]
    simp
  have := overlapAcc_stop overlap sents.reverse 0 x pre.reverse h3
  rw [← sumLens_reverse (overlapTail sents overlap)]
  simp only [overlapTail, List.reverse_reverse]
  omega

theorem overlapTail_total (sents : List (List Char)) (overlap : Nat)
    (h : sumLens sents ≤ overlap) : overlapTail sents overlap = sents := by
  unfold overlapTail
  rw [overlapAcc_total overlap sents.reverse 0 (by rw [sumLens_reverse]; omega),
    List.reverse_reverse]

/-- Claim C3: when `criar_chunks`'s loop emits a chunk because the next
segment would overflow the target size, and `overlap > 0` with a nonempty
contributing segment list, the new buffer is seeded with the greedy
backwards-accumulated tail `overlapTail` of the just-emitted chunk's segment
list, followed by the overflowing segment; that tail is a suffix of whole
segments, its cumulative length stays within `overlap`, it is maximal (one
more segment would exceed the budget), and when the whole segment list fits
within the budget, the entire list is retained. -/
theorem claim_C3 (tamanho overlap : Nat) (st : ChunkState) (sentenca : List Char)
    (hover : tamanho < st.chunk_atual.length + sentenca.length)
    (hemit : stripStr st.chunk_atual ≠ [])
    (hovl : 0 < overlap) (hsent : st.sentencas ≠ []) :
    (criarStep tamanho overlap st sentenca).chunks =
        st.chunks ++ [mkChunk st.indice st.chunk_atual st.sentencas] ∧
      (criarStep tamanho overlap st sentenca).sentencas =
        overlapTail st.sentencas overlap ++ [sentenca] ∧
      (criarStep tamanho overlap st sentenca).chunk_atual =
        joinSp (overlapTail st.sentencas overlap) ++ ' ' :: (sentenca ++ [' ']) ∧
      (∃ pre, st.sentencas = pre ++ overlapTail st.sentencas overlap) ∧
      sumLens (overlapTail st.sentencas overlap) ≤ overlap ∧
      (∀ pre x, st.sentencas = pre ++ x :: overlapTail st.sentencas overlap →
        overlap < x.length + sumLens (overlapTail st.sentencas overlap)) ∧
      (sumLens st.sentencas ≤ overlap → overlapTail st.sentencas overlap = st.sentencas) := by
  have hno : ¬(st.chunk_atual.length + sentenca.length ≤ tamanho) := by omega
  have hstep : criarStep tamanho overlap st sentenca =
      { chunks := st.chunks ++ [mkChunk st.indice st.chunk_atual st.sentencas]
        chunk_atual := joinSp (overlapTail st.sentencas overlap) ++ ' ' :: (sentenca ++ [' '])
        sentencas := overlapTail st.sentencas overlap ++ [sentenca]
        indice := st.indice + 1 } := by
    unfold criarStep
    rw [if_neg hno, if_pos ⟨hovl, hsent⟩]
    simp only [if_pos hemit]
  refine ⟨by rw [hstep], by rw [hstep], by rw [hstep],
    overlapTail_suffix st.sentencas overlap, overlapTail_sum st.sentencas overlap,
    overlapTail_stop st.sentencas overlap, overlapTail_total st.sentencas overlap⟩

/-! ## Claim C10: no segment is dropped from the chunk list -/

/-- Branch equation of `criarStep`: the segment fits the buffer. -/
theorem criarStep_fit {tamanho overlap : Nat} {st : ChunkState} {s : List Char}
    (h : st.chunk_atual.length + s.length ≤ tamanho) :
    criarStep tamanho overlap st s =
      { st with
        chunk_atual := st.chunk_atual ++ s ++ [' ']
        sentencas := st.sentencas ++ [s] } := by
  unfold criarStep
  rw [if_pos h]

/-- Branch equation of `criarStep`: overflow with overlap seeding. -/
theorem criarStep_seed {tamanho overlap : Nat} {st : ChunkState} {s : List Char}
    (h : ¬(st.chunk_atual.length + s.length ≤ tamanho))
    (h2 : 0 < overlap ∧ st.sentencas ≠ []) :
    criarStep tamanho overlap st s =
      { chunks := if stripStr st.chunk_atual ≠ []
          then st.chunks ++ [mkChunk st.indice st.chunk_atual st.sentencas] else st.chunks
        chunk_atual := joinSp (overlapTail st.sentencas overlap) ++ ' ' :: (s ++ [' '])
        sentencas := overlapTail st.sentencas overlap ++ [s]
        indice := if stripStr st.chunk_atual ≠ [] then st.indice + 1 else st.indice } := by
  unfold criarStep
  rw [if_neg h, if_pos h2]

/-- Branch equation of `criarStep`: overflow without overlap seeding. -/
theorem criarStep_noseed {tamanho overlap : Nat} {st : ChunkState} {s : List Char}
    (h : ¬(st.chunk_atual.length + s.length ≤ tamanho))
    (h2 : ¬(0 < overlap ∧ st.sentencas ≠ [])) :
    criarStep tamanho overlap st s =
      { chunks := if stripStr st.chunk_atual ≠ []
          then st.chunks ++ [mkChunk st.indice st.chunk_atual st.sentencas] else st.chunks
        chunk_atual := s ++ [' ']
        sentencas := [s]
        indice := if stripStr st.chunk_atual ≠ [] then st.indice + 1 else st.indice } := by
  unfold criarStep
  rw [if_neg h, if_neg h2]

theorem joinSp_cons (l : List Char) (ls : List (List Char)) :
    ∃ w, joinSp (l :: ls) = l ++ w := by
  cases ls with
  | nil => exact ⟨[], by simp [joinSp]⟩
  | cons l' ls' => exact ⟨' ' :: joinSp (l' :: ls'), rfl⟩

theorem contSub_of_mem_joinSp {ls : List (List Char)} {x : List Char} (h : x ∈ ls) :
    ContSub x (joinSp ls) := by
  induction ls with
  | nil => simp at h
  | cons l₀ ls ih =>
    cases ls with
    | nil =>
      rcases List.mem_singleton.mp h with rfl
      exact ⟨[], [], by simp [joinSp]⟩
    | cons l₁ ls' =>
      rw [joinSp]
      rcases List.mem_cons.mp h with rfl | h
      · exact ⟨[], ' ' :: joinSp (l₁ :: ls'), by simp⟩
      · exact ((ih h).cons_of ' ').append_left l₀

theorem concat_of_ne_nil {s : List Char} (hs : s ≠ []) : ∃ u d, s = u ++ [d] := by
  rcases hrev : s.reverse with _ | ⟨d, ur⟩
  · have := congrArg List.reverse hrev
    simp at this
    exact absurd this hs
  · refine ⟨ur.reverse, d, ?_⟩
    have := congrArg List.reverse hrev
    simpa using this

theorem dropTrailWs_append_sent {X s : List Char} (hs : s ≠ []) (hstr : Stripped s) :
    dropTrailWs (X ++ s ++ [' ']) = X ++ s := by
  obtain ⟨u, d, hud⟩ := concat_of_ne_nil hs
  have hd : isPyWs d = false := stripped_last hstr u d hud
  unfold dropTrailWs
  rw [List.reverse_append, List.reverse_append]
  have hsrev : s.reverse = d :: u.reverse := by rw [hud]; simp
  rw [hsrev]
  have h1 : (([' '] : List Char).reverse ++ (d :: u.reverse ++ X.reverse)).dropWhile isPyWs =
      d :: u.reverse ++ X.reverse := by
    rw [List.reverse_singleton, List.singleton_append,
      List.dropWhile_cons_of_pos (by decide), List.cons_append,
      List.dropWhile_cons_of_neg (by simp [hd])]
  rw [h1]
  have := congrArg List.reverse hsrev
  simp at this
  simp [← this]

theorem stripStr_buf_append {b s : List Char} (hs : s ≠ []) (hstr : Stripped s) :
    stripStr (b ++ s ++ [' ']) = b.dropWhile isPyWs ++ s := by
  unfold stripStr
  have hdw : (b ++ s ++ [' ']).dropWhile isPyWs = b.dropWhile isPyWs ++ s ++ [' '] := by
    rw [List.append_assoc, List.dropWhile_append]
    rcases hb : b.dropWhile isPyWs with _ | ⟨c, r⟩
    · simp only [List.isEmpty_nil, if_true]
      obtain ⟨c₀, r₀, hc₀⟩ : ∃ c₀ r₀, s = c₀ :: r₀ := by
        cases s with
        | nil => exact absurd rfl hs
        | cons a r => exact ⟨a, r, rfl⟩
      rw [hc₀, List.cons_append,
        List.dropWhile_cons_of_neg (by simp [stripped_head hstr c₀ r₀ hc₀])]
      simp
    · simp only [List.isEmpty_cons, if_false]
      simp
  rw [hdw]
  exact dropTrailWs_append_sent hs hstr

theorem contSub_stripStr_extend {b s x : List Char} (hs : s ≠ []) (hstr : Stripped s)
    (h : ContSub x (stripStr b)) : ContSub x (stripStr (b ++ s ++ [' '])) := by
  rw [stripStr_buf_append hs hstr]
  obtain ⟨v, hv, _⟩ := dropTrailWs_slice (b.dropWhile isPyWs)
  have hv' : b.dropWhile isPyWs = stripStr b ++ v := hv
  rw [hv', List.append_assoc]
  exact (h.append_right (v ++ s)).trans ⟨[], [], by simp⟩

theorem contSub_sent_in_append {b s : List Char} (hs : s ≠ []) (hstr : Stripped s) :
    ContSub s (stripStr (b ++ s ++ [' '])) := by
  rw [stripStr_buf_append hs hstr]
  exact ⟨b.dropWhile isPyWs, [], by simp⟩

/-- The reseeded buffer strips to the joined overlap tail (when nonempty)
followed by a space and the overflowing segment. -/
theorem stripStr_seed_buffer {ov : List (List Char)} {s : List Char}
    (hov : ∀ x ∈ ov, x ≠ [] ∧ Stripped x) (hs : s ≠ []) (hstr : Stripped s) :
    (ov ≠ [] → stripStr (joinSp ov ++ ' ' :: (s ++ [' '])) = joinSp ov ++ [' '] ++ s) ∧
      (ov = [] → stripStr (joinSp ov ++ ' ' :: (s ++ [' '])) = s) := by
  have hb : joinSp ov ++ ' ' :: (s ++ [' ']) = (joinSp ov ++ [' ']) ++ s ++ [' '] := by simp
  constructor
  · intro hne
    rw [hb, stripStr_buf_append hs hstr]
    obtain ⟨l, ls, rfl⟩ : ∃ l ls, ov = l :: ls := by
      cases ov with
      | nil => exact absurd rfl hne
      | cons l ls => exact ⟨l, ls, rfl⟩
    obtain ⟨w, hw⟩ := joinSp_cons l ls
    obtain ⟨c₀, r₀, hc₀⟩ : ∃ c₀ r₀, l = c₀ :: r₀ := by
      cases l with
      | nil => exact absurd rfl (hov [] (by simp)).1
      | cons a r => exact ⟨a, r, rfl⟩
    have hdw : (joinSp (l :: ls) ++ [' ']).dropWhile isPyWs = joinSp (l :: ls) ++ [' '] := by
      rw [hw, hc₀, List.cons_append, List.cons_append,
        List.dropWhile_cons_of_neg
          (by simp [stripped_head (hov l (by simp)).2 c₀ r₀ hc₀])]
    rw [hdw]
  · intro hnil
    subst hnil
    rw [hb, stripStr_buf_append hs hstr]
    rw [show (joinSp ([] : List (List Char)) ++ [' ']).dropWhile isPyWs = [] from by decide]
    simp

/-- The invariant of `criar_chunks`'s loop: every segment recorded in
`sentencas_no_chunk` is nonempty, stripped, and occurs in the stripped
current buffer. -/
theorem criarStep_inv {tamanho overlap : Nat} {st : ChunkState} {s : List Char}
    (hs : s ≠ [] ∧ Stripped s)
    (hI : ∀ x ∈ st.sentencas, x ≠ [] ∧ Stripped x ∧ ContSub x (stripStr st.chunk_atual)) :
    ∀ x ∈ (criarStep tamanho overlap st s).sentencas,
      x ≠ [] ∧ Stripped x ∧ ContSub x (stripStr (criarStep tamanho overlap st s).chunk_atual) := by
  by_cases hfit : st.chunk_atual.length + s.length ≤ tamanho
  · rw [criarStep_fit hfit]
    intro x hx
    simp only at hx ⊢
    rcases List.mem_append.mp hx with hx | hx
    · obtain ⟨h1, h2, h3⟩ := hI x hx
      exact ⟨h1, h2, contSub_stripStr_extend hs.1 hs.2 h3⟩
    · rcases List.mem_singleton.mp hx with rfl
      exact ⟨hs.1, hs.2, contSub_sent_in_append hs.1 hs.2⟩
  · by_cases hseed : 0 < overlap ∧ st.sentencas ≠ []
    · rw [criarStep_seed hfit hseed]
      intro x hx
      simp only at hx ⊢
      have hovmem : ∀ y ∈ overlapTail st.sentencas overlap, y ≠ [] ∧ Stripped y := by
        intro y hy
        obtain ⟨pre, hpre⟩ := overlapTail_suffix st.sentencas overlap
        have : y ∈ st.sentencas := by
          rw [hpre]
          exact List.mem_append.mpr (Or.inr hy)
        exact ⟨(hI y this).1, (hI y this).2.1⟩
      obtain ⟨hpos, hzero⟩ := stripStr_seed_buffer hovmem hs.1 hs.2
      rcases List.mem_append.mp hx with hx | hx
      · have hne : overlapTail st.sentencas overlap ≠ [] := by
          intro hh
          rw [hh] at hx
          simp at hx
        obtain ⟨h1, h2⟩ := hovmem x hx
        refine ⟨h1, h2, ?_⟩
        rw [hpos hne]
        exact (contSub_of_mem_joinSp hx).append_right ([' '] ++ s) |>.trans
          ⟨[], [], by simp⟩
      · rcases List.mem_singleton.mp hx with rfl
        refine ⟨hs.1, hs.2, ?_⟩
        by_cases hne : overlapTail st.sentencas overlap = []
        · rw [hzero hne]
          exact ⟨[], [], by simp⟩
        · rw [hpos hne]
          exact ⟨joinSp (overlapTail st.sentencas overlap) ++ [' '], [], by simp⟩
    · rw [criarStep_noseed hfit hseed]
      intro x hx
      simp only at hx ⊢
      rcases List.mem_singleton.mp hx with rfl
      refine ⟨hs.1, hs.2, ?_⟩
      have hb : x ++ [' '] = [] ++ x ++ [' '] := by simp
      rw [hb, stripStr_buf_append hs.1 hs.2]
      exact ⟨[], [], by simp⟩

/-- A segment already recorded either stays recorded or lands in an emitted
chunk. -/
theorem criarStep_stay {tamanho overlap : Nat} {st : ChunkState} {s : List Char}
    (hI : ∀ x ∈ st.sentencas, x ≠ [] ∧ Stripped x ∧ ContSub x (stripStr st.chunk_atual))
    {x : List Char} (hx : x ∈ st.sentencas) :
    x ∈ (criarStep tamanho overlap st s).sentencas ∨
      ∃ c ∈ (criarStep tamanho overlap st s).chunks, ContSub x c.texto := by
  by_cases hfit : st.chunk_atual.length + s.length ≤ tamanho
  · rw [criarStep_fit hfit]
    exact Or.inl (List.mem_append.mpr (Or.inl hx))
  · by_cases hemit : stripStr st.chunk_atual ≠ []
    · refine Or.inr ⟨mkChunk st.indice st.chunk_atual st.sentencas, ?_, (hI x hx).2.2⟩
      by_cases hseed : 0 < overlap ∧ st.sentencas ≠ []
      · rw [criarStep_seed hfit hseed]
        simp only [if_pos hemit]
        simp
      · rw [criarStep_noseed hfit hseed]
        simp only [if_pos hemit]
        simp
    · obtain ⟨h1, _, h3⟩ := hI x hx
      rw [not_not.mp hemit] at h3
      exact absurd (contSub_nil_right h3) h1

theorem criarStep_chunks_mono {tamanho overlap : Nat} {st : ChunkState} {s : List Char}
    {c : Chunk} (hc : c ∈ st.chunks) : c ∈ (criarStep tamanho overlap st s).chunks := by
  by_cases hfit : st.chunk_atual.length + s.length ≤ tamanho
  · rw [criarStep_fit hfit]
    exact hc
  · by_cases hseed : 0 < overlap ∧ st.sentencas ≠ []
    · rw [criarStep_seed hfit hseed]
      simp only
      split
      · exact List.mem_append.mpr (Or.inl hc)
      · exact hc
    · rw [criarStep_noseed hfit hseed]
      simp only
      split
      · exact List.mem_append.mpr (Or.inl hc)
      · exact hc

/-- The segment just processed is always recorded in the new state. -/
theorem criarStep_mem_self {tamanho overlap : Nat} {st : ChunkState} {s : List Char} :
    s ∈ (criarStep tamanho overlap st s).sentencas := by
  by_cases hfit : st.chunk_atual.length + s.length ≤ tamanho
  · rw [criarStep_fit hfit]
    simp
  · by_cases hseed : 0 < overlap ∧ st.sentencas ≠ []
    · rw [criarStep_seed hfit hseed]
      simp
    · rw [criarStep_noseed hfit hseed]
      simp

theorem fold_chunk_inv (tamanho overlap : Nat) :
    ∀ (sents : List (List Char)) (st : ChunkState),
      (∀ s ∈ sents, s ≠ [] ∧ Stripped s) →
      (∀ x ∈ st.sentencas, x ≠ [] ∧ Stripped x ∧ ContSub x (stripStr st.chunk_atual)) →
      ∀ x ∈ (sents.foldl (criarStep tamanho overlap) st).sentencas,
        x ≠ [] ∧ Stripped x ∧
          ContSub x (stripStr (sents.foldl (criarStep tamanho overlap) st).chunk_atual) := by
  intro sents
  induction sents with
  | nil => intro st _ hI; exact hI
  | cons s rest ih =>
    intro st hseg hI
    exact ih (criarStep tamanho overlap st s)
      (fun y hy => hseg y (List.mem_cons_of_mem s hy))
      (criarStep_inv ⟨(hseg s (by simp)).1, (hseg s (by simp)).2⟩ hI)

theorem fold_chunks_mono (tamanho overlap : Nat) :
    ∀ (sents : List (List Char)) (st : ChunkState) (c : Chunk), c ∈ st.chunks →
      c ∈ (sents.foldl (criarStep tamanho overlap) st).chunks := by
  intro sents
  induction sents with
  | nil => intro st c hc; exact hc
  | cons s rest ih =>
    intro st c hc
    exact ih (criarStep tamanho overlap st s) c (criarStep_chunks_mono hc)

theorem fold_stay (tamanho overlap : Nat) :
    ∀ (sents : List (List Char)) (st : ChunkState),
      (∀ s ∈ sents, s ≠ [] ∧ Stripped s) →
      (∀ x ∈ st.sentencas, x ≠ [] ∧ Stripped x ∧ ContSub x (stripStr st.chunk_atual)) →
      ∀ x ∈ st.sentencas,
        x ∈ (sents.foldl (criarStep tamanho overlap) st).sentencas ∨
          ∃ c ∈ (sents.foldl (criarStep tamanho overlap) st).chunks, ContSub x c.texto := by
  intro sents
  induction sents with
  | nil => intro st _ _ x hx; exact Or.inl hx
  | cons s rest ih =>
    intro st hseg hI x hx
    have hseg' : ∀ y ∈ rest, y ≠ [] ∧ Stripped y :=
      fun y hy => hseg y (List.mem_cons_of_mem s hy)
    have hI' := @criarStep_inv tamanho overlap st s
      ⟨(hseg s (by simp)).1, (hseg s (by simp)).2⟩ hI
    rcases @criarStep_stay tamanho overlap st s hI x hx with h | ⟨c, hc, hcc⟩
    · exact ih (criarStep tamanho overlap st s) hseg' hI' x h
    · exact Or.inr ⟨c, fold_chunks_mono tamanho overlap rest _ c hc, hcc⟩

theorem fold_covers (tamanho overlap : Nat) :
    ∀ (sents : List (List Char)) (st : ChunkState),
      (∀ s ∈ sents, s ≠ [] ∧ Stripped s) →
      (∀ x ∈ st.sentencas, x ≠ [] ∧ Stripped x ∧ ContSub x (stripStr st.chunk_atual)) →
      ∀ s ∈ sents,
        s ∈ (sents.foldl (criarStep tamanho overlap) st).sentencas ∨
          ∃ c ∈ (sents.foldl (criarStep tamanho overlap) st).chunks, ContSub s c.texto := by
  intro sents
  induction sents with
  | nil => intro st _ _ s hs; simp at hs
  | cons s₀ rest ih =>
    intro st hseg hI s hs
    have hseg' : ∀ y ∈ rest, y ≠ [] ∧ Stripped y :=
      fun y hy => hseg y (List.mem_cons_of_mem s₀ hy)
    have hI' := @criarStep_inv tamanho overlap st s₀
      ⟨(hseg s₀ (by simp)).1, (hseg s₀ (by simp)).2⟩ hI
    rcases List.mem_cons.mp hs with rfl | hs
    · exact fold_stay tamanho overlap rest (criarStep tamanho overlap st s) hseg' hI' s
        criarStep_mem_self
    · exact ih (criarStep tamanho overlap st s₀) hseg' hI' s hs

/-- Claim C10: for every segment sequence of nonempty stripped segments (as
the segmenters produce), every positive target size and every overlap, each
segment occurs as a substring of the text of at least one emitted chunk. -/
theorem claim_C10 (segmentar : List Char → List (List Char)) (texto : List Char)
    (tamanho overlap : Nat) (_htam : 0 < tamanho)
    (hseg : ∀ s ∈ segmentar texto, s ≠ [] ∧ stripStr s = s) :
    ∀ s ∈ segmentar texto,
      ∃ c ∈ criar_chunks segmentar texto tamanho overlap, ContSub s c.texto := by
  intro s hs
  unfold criar_chunks
  rw [criar_chunks_de_eq]
  have hInit : ∀ x ∈ (estadoInicial).sentencas,
      x ≠ [] ∧ Stripped x ∧ ContSub x (stripStr (estadoInicial).chunk_atual) := by
    intro x hx
    simp [estadoInicial] at hx
  rcases fold_covers tamanho overlap (segmentar texto) estadoInicial hseg hInit s hs with h | ⟨c, hc, hcc⟩
  · have hIF := fold_chunk_inv tamanho overlap (segmentar texto) estadoInicial hseg hInit
    obtain ⟨h1, _, h3⟩ := hIF s h
    by_cases hfin : stripStr (((segmentar texto).foldl (criarStep tamanho overlap)
        estadoInicial).chunk_atual) ≠ []
    · refine ⟨mkChunk ((segmentar texto).foldl (criarStep tamanho overlap) estadoInicial).indice
        (((segmentar texto).foldl (criarStep tamanho overlap) estadoInicial).chunk_atual)
        (((segmentar texto).foldl (criarStep tamanho overlap) estadoInicial).sentencas),
        ?_, h3⟩
      rw [if_pos hfin]
      simp
    · rw [not_not.mp hfin] at h3
      exact absurd (contSub_nil_right h3) h1
  · refine ⟨c, ?_, hcc⟩
    exact List.mem_append.mpr (Or.inl hc)

/-- Claim C10, witness: paragraph segmentation of a concrete text whose
segments are nonempty and stripped. -/
theorem claim_C10_witness :
    (0 < 4 ∧ ∀ s ∈ segmentar_em_paragrafos "aaa\n\nbb cc\n\ndddd".toList,
        s ≠ [] ∧ stripStr s = s) ∧
      ∀ s ∈ segmentar_em_paragrafos "aaa\n\nbb cc\n\ndddd".toList,
        ∃ c ∈ criar_chunks segmentar_em_paragrafos "aaa\n\nbb cc\n\ndddd".toList 4 2,
          ContSub s c.texto :=
  ⟨⟨by decide, by decide⟩,
    claim_C10 segmentar_em_paragrafos "aaa\n\nbb cc\n\ndddd".toList 4 2 (by decide) (by decide)⟩

/-- Claim C3, witness: buffer `"aa bb "` with segments `["aa", "bb"]`,
overflow segment `"cccc"`, `tamanho = 8`, `overlap = 3` — the retained tail
is `["bb"]`. -/
theorem claim_C3_witness :
    (8 < (['a', 'a', ' ', 'b', 'b', ' '] : List Char).length +
        (['c', 'c', 'c', 'c'] : List Char).length ∧
      stripStr ['a', 'a', ' ', 'b', 'b', ' '] ≠ [] ∧ 0 < 3 ∧
      ([['a', 'a'], ['b', 'b']] : List (List Char)) ≠ []) ∧
      ((criarStep 8 3 ⟨[], ['a', 'a', ' ', 'b', 'b', ' '], [['a', 'a'], ['b', 'b']], 0⟩
          ['c', 'c', 'c', 'c']).chunks =
        [] ++ [mkChunk 0 ['a', 'a', ' ', 'b', 'b', ' '] [['a', 'a'], ['b', 'b']]] ∧
      (criarStep 8 3 ⟨[], ['a', 'a', ' ', 'b', 'b', ' '], [['a', 'a'], ['b', 'b']], 0⟩
          ['c', 'c', 'c', 'c']).sentencas =
        overlapTail [['a', 'a'], ['b', 'b']] 3 ++ [['c', 'c', 'c', 'c']] ∧
      (criarStep 8 3 ⟨[], ['a', 'a', ' ', 'b', 'b', ' '], [['a', 'a'], ['b', 'b']], 0⟩
          ['c', 'c', 'c', 'c']).chunk_atual =
        joinSp (overlapTail [['a', 'a'], ['b', 'b']] 3) ++ ' ' :: (['c', 'c', 'c', 'c'] ++ [' ']) ∧
      (∃ pre, ([['a', 'a'], ['b', 'b']] : List (List Char)) =
        pre ++ overlapTail [['a', 'a'], ['b', 'b']] 3) ∧
      sumLens (overlapTail [['a', 'a'], ['b', 'b']] 3) ≤ 3 ∧
      (∀ pre x, ([['a', 'a'], ['b', 'b']] : List (List Char)) =
          pre ++ x :: overlapTail [['a', 'a'], ['b', 'b']] 3 →
        3 < x.length + sumLens (overlapTail [['a', 'a'], ['b', 'b']] 3)) ∧
      (sumLens [['a', 'a'], ['b', 'b']] ≤ 3 →
        overlapTail [['a', 'a'], ['b', 'b']] 3 = [['a', 'a'], ['b', 'b']])) :=
  ⟨⟨by decide, by decide, by decide, by decide⟩,
    claim_C3 8 3 ⟨[], ['a', 'a', ' ', 'b', 'b', ' '], [['a', 'a'], ['b', 'b']], 0⟩
      ['c', 'c', 'c', 'c'] (by decide) (by decide) (by decide) (by decide)⟩

/-! ## Claim C8: cosine similarity and the zero-norm guard -/

/-- The sum of squares of a real list is nonnegative, and vanishes exactly
on the zero vector. -/
theorem sum_sq_zero (a : List ℝ) :
    ((a.map (fun x => x * x)).sum = 0 ↔ ∀ x ∈ a, x = 0) ∧
      0 ≤ (a.map (fun x => x * x)).sum := by
  induction a with
  | nil => simp
  | cons y r ih =>
    obtain ⟨ih1, ih2⟩ := ih
    constructor
    · simp only [List.map_cons, List.sum_cons, List.mem_cons]
      rw [add_eq_zero_iff_of_nonneg (mul_self_nonneg y) ih2, mul_self_eq_zero, ih1]
      constructor
      · rintro ⟨rfl, h⟩ x hx
        rcases hx with rfl | hx
        · rfl
        · exact h x hx
      · intro h
        exact ⟨h y (Or.inl rfl), fun x hx => h x (Or.inr hx)⟩
    · simp only [List.map_cons, List.sum_cons]
      exact add_nonneg (mul_self_nonneg y) ih2

/-- `sumSq` is the sum of squares. -/
theorem sumSq_spec (a : List ℝ) :
    (sumSq a = 0 ↔ ∀ x ∈ a, x = 0) ∧ 0 ≤ sumSq a := by
  have h := sum_sq_zero a
  unfold sumSq dot
  rw [List.zipWith_same]
  exact h

/-- The Euclidean norm vanishes exactly on the zero vector. -/
theorem normVec_eq_zero (a : List ℝ) : normVec a = 0 ↔ ∀ x ∈ a, x = 0 := by
  unfold normVec
  rw [Real.sqrt_eq_zero (sumSq_spec a).2]
  exact (sumSq_spec a).1

/-- Claim C8: for every pair of embedding vectors, if either has zero norm —
in particular if one is a zero vector — `calcular_similaridade_coseno`
returns exactly `0`; otherwise the denominator `normVec e1 * normVec e2` is
nonzero (so the division is by a nonzero real) and the result is the dot
product divided by the product of the norms, i.e. the value that multiplied
back by the denominator recovers the dot product. -/
theorem claim_C8 (e1 e2 : List ℝ) :
    (normVec e1 = 0 ∨ normVec e2 = 0 → calcular_similaridade_coseno e1 e2 = 0) ∧
      ((∀ x ∈ e1, x = 0) → calcular_similaridade_coseno e1 e2 = 0) ∧
      (normVec e1 ≠ 0 → normVec e2 ≠ 0 →
        normVec e1 * normVec e2 ≠ 0 ∧
        calcular_similaridade_coseno e1 e2 =
          dot e1 e2 / (normVec e1 * normVec e2) ∧
        calcular_similaridade_coseno e1 e2 * (normVec e1 * normVec e2) = dot e1 e2) := by
  refine ⟨?_, ?_, ?_⟩
  · intro h
    simp only [calcular_similaridade_coseno, if_pos h]
  · intro h
    have hz : normVec e1 = 0 := (normVec_eq_zero e1).mpr h
    simp only [calcular_similaridade_coseno, if_pos (Or.inl hz)]
  · intro h1 h2
    have hd : normVec e1 * normVec e2 ≠ 0 := mul_ne_zero h1 h2
    have hni : ¬(normVec e1 = 0 ∨ normVec e2 = 0) := by
      rintro (h | h)
      · exact h1 h
      · exact h2 h
    refine ⟨hd, ?_, ?_⟩
    · simp only [calcular_similaridade_coseno, if_neg hni]
    · simp only [calcular_similaridade_coseno, if_neg hni]
      exact div_mul_cancel₀ _ hd

/-- Claim C8, witness: the zero vector `[0]` against `[1, 2]` yields `0`,
and two nonzero one-dimensional vectors give a nonzero denominator. -/
theorem claim_C8_witness :
    ((normVec [(0 : ℝ)] = 0 ∨ normVec [(1 : ℝ), 2] = 0) ∧
      calcular_similaridade_coseno [(0 : ℝ)] [(1 : ℝ), 2] = 0) ∧
      (normVec [(3 : ℝ)] ≠ 0 ∧ normVec [(4 : ℝ)] ≠ 0 ∧
        normVec [(3 : ℝ)] * normVec [(4 : ℝ)] ≠ 0 ∧
        calcular_similaridade_coseno [(3 : ℝ)] [(4 : ℝ)] *
          (normVec [(3 : ℝ)] * normVec [(4 : ℝ)]) = dot [(3 : ℝ)] [(4 : ℝ)]) := by
  have h0 : normVec [(0 : ℝ)] = 0 := (normVec_eq_zero [(0 : ℝ)]).mpr (by
    intro x hx
    simpa using hx)
  have h3 : normVec [(3 : ℝ)] ≠ 0 := by
    intro h
    have h' := (normVec_eq_zero [(3 : ℝ)]).mp h 3 (by simp)
    norm_num at h'
  have h4 : normVec [(4 : ℝ)] ≠ 0 := by
    intro h
    have h' := (normVec_eq_zero [(4 : ℝ)]).mp h 4 (by simp)
    norm_num at h'
  refine ⟨⟨Or.inl h0, (claim_C8 [(0 : ℝ)] [(1 : ℝ), 2]).1 (Or.inl h0)⟩,
    h3, h4, ((claim_C8 [(3 : ℝ)] [(4 : ℝ)]).2.2 h3 h4).1,
    ((claim_C8 [(3 : ℝ)] [(4 : ℝ)]).2.2 h3 h4).2.2⟩

/-! ## Relevance selection: shared lemmas -/

/-- The non-degenerate branch of `selecionar_chunks_relevantes`, spelled
out: build the similarity entries, sort by descending similarity, take the
selection count, re-sort by original index, attach the similarities. -/
theorem selecionar_eq (chunks : List Chunk) (embeddings_chunks : List (List ℝ))
    (embedding_global : List ℝ) (f : ℝ)
    (h : (chunks.isEmpty || embeddings_chunks.isEmpty) = false) :
    selecionar_chunks_relevantes chunks embeddings_chunks embedding_global f =
      (((((chunks.zip embeddings_chunks).enum.map
            (fun p => SimEntry.mk p.1 p.2.1
              (calcular_similaridade_coseno p.2.2 embedding_global))).mergeSort
            (fun a b => decide (b.similaridade ≤ a.similaridade))).take
            (max 1 (Int.toNat ⌊(chunks.length : ℝ) * f⌋))).mergeSort
            (fun a b => decide (a.indice_original ≤ b.indice_original))).map
        (fun e => comSimilaridade e.chunk e.similaridade) := by
  unfold selecionar_chunks_relevantes
  rw [if_neg]
  simp [h]

/-- Every similarity entry records, at `indice_original`, the position of
its chunk in the input list. -/
theorem mem_simEntries (chunks : List Chunk) (emb : List (List ℝ)) (g : List ℝ)
    (e : SimEntry)
    (he : e ∈ (chunks.zip emb).enum.map
      (fun p => SimEntry.mk p.1 p.2.1 (calcular_similaridade_coseno p.2.2 g))) :
    ∃ (i : Nat) (h1 : i < chunks.length),
      e.indice_original = i ∧ e.chunk = chunks.get ⟨i, h1⟩ := by
  rcases List.mem_map.mp he with ⟨p, hp, rfl⟩
  rcases List.mem_iff_getElem.mp hp with ⟨j, hj, hpj⟩
  have hj' : j < (chunks.zip emb).length := by
    simpa [List.enum_length] using hj
  have h1 : j < chunks.length := by
    rw [List.length_zip] at hj'
    exact lt_of_lt_of_le hj' inf_le_left
  have h2 : j < emb.length := by
    rw [List.length_zip] at hj'
    exact lt_of_lt_of_le hj' inf_le_right
  have hp' : p = (j, (chunks.get ⟨j, h1⟩, emb.get ⟨j, h2⟩)) := by
    rw [← hpj, List.getElem_enum, List.getElem_zip]
    rfl
  subst hp'
  exact ⟨j, h1, rfl, by simp [List.get_eq_getElem]⟩

/-- The `indice_original` fields of the similarity entries are exactly
`0, 1, 2, …` in order. -/
theorem simEntries_map_fst (chunks : List Chunk) (emb : List (List ℝ)) (g : List ℝ) :
    ((chunks.zip emb).enum.map
        (fun p => SimEntry.mk p.1 p.2.1 (calcular_similaridade_coseno p.2.2 g))).map
      (fun e => e.indice_original) = List.range (chunks.zip emb).length := by
  rw [List.map_map]
  show List.map Prod.fst (chunks.zip emb).enum = _
  exact List.enum_map_fst _

/-- The `indice_original` fields of the similarity entries are strictly
increasing (in particular pairwise distinct). -/
theorem simEntries_pairwise_lt (chunks : List Chunk) (emb : List (List ℝ)) (g : List ℝ) :
    List.Pairwise (fun a b : SimEntry => a.indice_original < b.indice_original)
      ((chunks.zip emb).enum.map
        (fun p => SimEntry.mk p.1 p.2.1 (calcular_similaridade_coseno p.2.2 g))) := by
  have h2 : List.Pairwise (fun a b : Nat => a < b)
      (((chunks.zip emb).enum.map
        (fun p => SimEntry.mk p.1 p.2.1 (calcular_similaridade_coseno p.2.2 g))).map
        (fun e => e.indice_original)) := by
    rw [simEntries_map_fst]
    exact List.pairwise_lt_range _
  exact List.pairwise_map.mp h2

/-- The selection count never exceeds the chunk count when the fraction is
at most one. -/
theorem num_selecionar_le (N : Nat) (f : ℝ) (hN : 0 < N) (hf1 : f ≤ 1) :
    max 1 (Int.toNat ⌊(N : ℝ) * f⌋) ≤ N := by
  have hmul : (N : ℝ) * f ≤ (N : ℝ) := by
    calc (N : ℝ) * f ≤ (N : ℝ) * 1 :=
          mul_le_mul_of_nonneg_left hf1 (by positivity)
      _ = (N : ℝ) := mul_one _
  have hfl : ⌊(N : ℝ) * f⌋ ≤ (N : Int) := by
    have h2 := Int.floor_le_floor hmul
    rwa [Int.floor_natCast] at h2
  have h3 : Int.toNat ⌊(N : ℝ) * f⌋ ≤ N := Int.toNat_le.mpr hfl
  omega

/-- Claim C2: for positionally indexed chunks, aligned embeddings and a
fraction in (0, 1], `selecionar_chunks_relevantes` returns exactly
`max 1 ⌊N·f⌋` chunks and their `indice` fields are strictly ascending. -/
theorem claim_C2 (chunks : List Chunk) (embeddings_chunks : List (List ℝ))
    (embedding_global : List ℝ) (f : ℝ)
    (hN : 0 < chunks.length)
    (hlen : embeddings_chunks.length = chunks.length)
    (hidx : ∀ (i : Nat) (h : i < chunks.length), (chunks.get ⟨i, h⟩).indice = i)
    (_hf0 : 0 < f) (hf1 : f ≤ 1) :
    (selecionar_chunks_relevantes chunks embeddings_chunks embedding_global f).length =
        max 1 (Int.toNat ⌊(chunks.length : ℝ) * f⌋) ∧
      List.Pairwise (fun a b => a < b)
        ((selecionar_chunks_relevantes chunks embeddings_chunks embedding_global f).map
          (fun c => c.indice)) := by
  have hguard : (chunks.isEmpty || embeddings_chunks.isEmpty) = false := by
    cases chunks with
    | nil => exact absurd hN (by simp)
    | cons a l =>
      cases embeddings_chunks with
      | nil => simp at hlen
      | cons b m => rfl
  rw [selecionar_eq chunks embeddings_chunks embedding_global f hguard]
  set sims := (chunks.zip embeddings_chunks).enum.map
      (fun p => SimEntry.mk p.1 p.2.1 (calcular_similaridade_coseno p.2.2 embedding_global))
    with hsims
  set le1 := fun a b : SimEntry => decide (b.similaridade ≤ a.similaridade) with hle1
  set le2 := fun a b : SimEntry => decide (a.indice_original ≤ b.indice_original) with hle2
  set num := max 1 (Int.toNat ⌊(chunks.length : ℝ) * f⌋) with hnum
  have hsl : sims.length = chunks.length := by
    rw [hsims, List.length_map, List.enum_length, List.length_zip, hlen, inf_idem]
  have hnumle : num ≤ chunks.length := by
    rw [hnum]
    exact num_selecionar_le chunks.length f hN hf1
  constructor
  · rw [List.length_map, List.length_mergeSort, List.length_take, List.length_mergeSort,
      hsl]
    exact Nat.min_eq_left hnumle
  · have hchunkidx : ∀ e ∈ sims, e.chunk.indice = e.indice_original := by
      intro e he
      rw [hsims] at he
      rcases mem_simEntries chunks embeddings_chunks embedding_global e he with
        ⟨i, h1, hio, hc⟩
      rw [hc, hidx i h1, hio]
    have hlt0 : List.Pairwise
        (fun a b : SimEntry => a.indice_original < b.indice_original) sims := by
      rw [hsims]
      exact simEntries_pairwise_lt chunks embeddings_chunks embedding_global
    have hne : List.Pairwise
        (fun a b : SimEntry => a.indice_original ≠ b.indice_original) sims :=
      hlt0.imp (fun h => Nat.ne_of_lt h)
    have hne1 : List.Pairwise
        (fun a b : SimEntry => a.indice_original ≠ b.indice_original)
        (sims.mergeSort le1) :=
      ((List.mergeSort_perm sims le1).pairwise_iff (fun h => Ne.symm h)).mpr hne
    have hne2 : List.Pairwise
        (fun a b : SimEntry => a.indice_original ≠ b.indice_original)
        ((sims.mergeSort le1).take num) :=
      List.Pairwise.sublist (List.take_sublist num (sims.mergeSort le1)) hne1
    have hne3 : List.Pairwise
        (fun a b : SimEntry => a.indice_original ≠ b.indice_original)
        (((sims.mergeSort le1).take num).mergeSort le2) :=
      ((List.mergeSort_perm ((sims.mergeSort le1).take num) le2).pairwise_iff
        (fun h => Ne.symm h)).mpr hne2
    have htrans : ∀ a b c : SimEntry,
        le2 a b = true → le2 b c = true → le2 a c = true := by
      intro a b c hab hbc
      simp only [hle2, decide_eq_true_eq] at hab hbc ⊢
      exact le_trans hab hbc
    have htotal : ∀ a b : SimEntry, (le2 a b || le2 b a) = true := by
      intro a b
      simp only [hle2, Bool.or_eq_true, decide_eq_true_eq]
      exact Nat.le_total _ _
    have hsort : List.Pairwise (fun a b => le2 a b = true)
        (((sims.mergeSort le1).take num).mergeSort le2) :=
      List.sorted_mergeSort htrans htotal ((sims.mergeSort le1).take num)
    have hlt : List.Pairwise
        (fun a b : SimEntry => a.indice_original < b.indice_original)
        (((sims.mergeSort le1).take num).mergeSort le2) := by
      refine (hsort.and hne3).imp ?_
      rintro a b ⟨hab, hnab⟩
      simp only [hle2, decide_eq_true_eq] at hab
      exact lt_of_le_of_ne hab hnab
    have hmem3 : ∀ e ∈ ((sims.mergeSort le1).take num).mergeSort le2,
        e.chunk.indice = e.indice_original := by
      intro e he
      apply hchunkidx
      have he2 := List.mem_mergeSort.mp he
      have he3 := (List.take_sublist num (sims.mergeSort le1)).subset he2
      exact List.mem_mergeSort.mp he3
    rw [List.map_map]
    have hmapeq : (((sims.mergeSort le1).take num).mergeSort le2).map
        ((fun c : Chunk => c.indice) ∘ (fun e => comSimilaridade e.chunk e.similaridade)) =
        (((sims.mergeSort le1).take num).mergeSort le2).map
          (fun e => e.indice_original) := by
      apply List.map_congr_left
      intro e he
      show (comSimilaridade e.chunk e.similaridade).indice = e.indice_original
      show e.chunk.indice = e.indice_original
      exact hmem3 e he
    rw [hmapeq]
    exact List.pairwise_map.mpr hlt

/-- Claim C2, witness: one chunk, one embedding, fraction `1` — one chunk
returned, trivially ascending. -/
theorem claim_C2_witness :
    (0 < ([mkChunk 0 ['a'] [['a']]] : List Chunk).length ∧
      ([[(1 : ℝ)]] : List (List ℝ)).length = ([mkChunk 0 ['a'] [['a']]] : List Chunk).length ∧
      (0 : ℝ) < 1 ∧ (1 : ℝ) ≤ 1) ∧
      ((selecionar_chunks_relevantes [mkChunk 0 ['a'] [['a']]] [[(1 : ℝ)]] [(1 : ℝ)] 1).length =
          max 1 (Int.toNat ⌊(([mkChunk 0 ['a'] [['a']]] : List Chunk).length : ℝ) * 1⌋) ∧
        List.Pairwise (fun a b => a < b)
          ((selecionar_chunks_relevantes [mkChunk 0 ['a'] [['a']]] [[(1 : ℝ)]] [(1 : ℝ)] 1).map
            (fun c => c.indice))) := by
  refine ⟨⟨by decide, rfl, by norm_num, le_refl 1⟩, ?_⟩
  exact claim_C2 [mkChunk 0 ['a'] [['a']]] [[(1 : ℝ)]] [(1 : ℝ)] 1 (by decide) rfl
    (fun i h => by
      have hi : i = 0 := by
        simp only [List.length_cons, List.length_nil] at h
        omega
      subst hi
      rfl)
    (by norm_num) (le_refl 1)

/-! ## Claim C9: selection returns augmented copies -/

/-- Claim C9 fails as stated: with a nonempty chunk list but an empty
embedding list, `selecionar_chunks_relevantes` takes the guard branch and
returns the input list itself — the returned chunk carries no
`similaridade` value, so it is not a copy augmented with a similarity
field. -/
theorem claim_C9_cex :
    selecionar_chunks_relevantes [mkChunk 0 ['a'] [['a']]] [] [] 1 =
        [mkChunk 0 ['a'] [['a']]] ∧
      ∀ c ∈ selecionar_chunks_relevantes [mkChunk 0 ['a'] [['a']]] [] [] 1,
        c.similaridade = none := by
  have heq : selecionar_chunks_relevantes [mkChunk 0 ['a'] [['a']]] [] [] 1 =
      [mkChunk 0 ['a'] [['a']]] := rfl
  refine ⟨heq, ?_⟩
  intro c hc
  rw [heq] at hc
  have h : c = mkChunk 0 ['a'] [['a']] := by simpa using hc
  rw [h]
  rfl

/-- Claim C9, amended: when the chunk list and the embedding list are both
nonempty (as they are whenever the pipeline reaches selection with chunks),
every chunk returned by `selecionar_chunks_relevantes` is `comSimilaridade`
of some input chunk — the input chunk value with the `similaridade` field
set — and `comSimilaridade` alters no other field.  The Python `chunk.copy()`
is modelled by the fact that the output entries are built as new values from
the input entries, which are themselves returned unchanged by the pure
function. -/
theorem claim_C9 (chunks : List Chunk) (embeddings_chunks : List (List ℝ))
    (embedding_global : List ℝ) (f : ℝ)
    (hN : 0 < chunks.length)
    (hlen : embeddings_chunks.length = chunks.length) :
    (∀ c' ∈ selecionar_chunks_relevantes chunks embeddings_chunks embedding_global f,
      ∃ (i : Nat) (h : i < chunks.length) (s : ℝ),
        c' = comSimilaridade (chunks.get ⟨i, h⟩) s ∧ c'.similaridade = some s) ∧
      (∀ (c : Chunk) (s : ℝ),
        (comSimilaridade c s).indice = c.indice ∧
        (comSimilaridade c s).texto = c.texto ∧
        (comSimilaridade c s).tamanho = c.tamanho ∧
        (comSimilaridade c s).num_palavras = c.num_palavras ∧
        (comSimilaridade c s).num_sentencas = c.num_sentencas ∧
        (comSimilaridade c s).similaridade = some s) := by
  have hguard : (chunks.isEmpty || embeddings_chunks.isEmpty) = false := by
    cases chunks with
    | nil => exact absurd hN (by simp)
    | cons a l =>
      cases embeddings_chunks with
      | nil => simp at hlen
      | cons b m => rfl
  constructor
  · intro c' hc'
    rw [selecionar_eq chunks embeddings_chunks embedding_global f hguard] at hc'
    rcases List.mem_map.mp hc' with ⟨e, he, rfl⟩
    have he2 := List.mem_mergeSort.mp he
    have he3 := (List.take_sublist _ _).subset he2
    have he4 := List.mem_mergeSort.mp he3
    rcases mem_simEntries chunks embeddings_chunks embedding_global e he4 with
      ⟨i, h1, _, hc⟩
    exact ⟨i, h1, e.similaridade, by rw [hc], rfl⟩
  · intro c s
    exact ⟨rfl, rfl, rfl, rfl, rfl, rfl⟩

/-- Claim C9, witness: one chunk and one embedding — the returned chunk is
the input chunk with its similarity attached. -/
theorem claim_C9_witness :
    (0 < ([mkChunk 0 ['a'] [['a']]] : List Chunk).length ∧
      ([[(1 : ℝ)]] : List (List ℝ)).length = ([mkChunk 0 ['a'] [['a']]] : List Chunk).length) ∧
      (∀ c' ∈ selecionar_chunks_relevantes [mkChunk 0 ['a'] [['a']]] [[(1 : ℝ)]] [(1 : ℝ)] 1,
        ∃ (i : Nat) (h : i < ([mkChunk 0 ['a'] [['a']]] : List Chunk).length) (s : ℝ),
          c' = comSimilaridade (([mkChunk 0 ['a'] [['a']]] : List Chunk).get ⟨i, h⟩) s ∧
          c'.similaridade = some s) :=
  ⟨⟨by decide, rfl⟩,
    (claim_C9 [mkChunk 0 ['a'] [['a']]] [[(1 : ℝ)]] [(1 : ℝ)] 1 (by decide) rfl).1⟩

/-! ## Claim C5: truncation for the embedding limit -/

/-- The defining equation of `truncar_texto_para_embedding`, lets reduced. -/
theorem truncar_eq (texto : List Char) (max_tokens : Nat) :
    truncar_texto_para_embedding texto max_tokens =
      if texto.length ≤ max_tokens * 4 then texto
      else
        match rfindSpace (texto.take (max_tokens * 4)) with
        | some i => if 0 < i then (texto.take (max_tokens * 4)).take i
          else texto.take (max_tokens * 4)
        | none => texto.take (max_tokens * 4) := rfl

/-- `List.findIdx?` returns the index (counted from the start parameter) of
the first element satisfying the predicate: the list splits around a hit
preceded only by misses. -/
theorem findIdx?_split (p : Char → Bool) (l : List Char) (s i : Nat)
    (h : List.findIdx? p l s = some i) :
    s ≤ i ∧ ∃ u c v, l = u ++ c :: v ∧ u.length = i - s ∧ p c = true ∧
      ∀ x ∈ u, p x = false := by
  induction l generalizing s with
  | nil =>
    rw [List.findIdx?_nil] at h
    exact absurd h (by simp)
  | cons a t ih =>
    rw [List.findIdx?_cons] at h
    by_cases hpa : p a = true
    · rw [if_pos hpa] at h
      have hi : s = i := by injection h
      subst hi
      exact ⟨le_refl s, [], a, t, rfl, by simp, hpa, by simp⟩
    · rw [if_neg hpa] at h
      rcases ih (s + 1) h with ⟨hsi, u, c, v, hl, hul, hpc, hu⟩
      simp only [Bool.not_eq_true] at hpa
      refine ⟨by omega, a :: u, c, v, by rw [hl]; rfl, ?_, hpc, ?_⟩
      · simp only [List.length_cons, hul]
        omega
      · intro x hx
        rcases List.mem_cons.mp hx with rfl | hx2
        · exact hpa
        · exact hu x hx2

/-- When `rfind(' ')` misses, the string has no space at all. -/
theorem rfindSpace_none (l : List Char) (h : rfindSpace l = none) :
    ∀ c ∈ l, c ≠ ' ' := by
  unfold rfindSpace at h
  have h2 := Option.map_eq_none'.mp h
  intro c hc heq
  subst heq
  have h3 := List.findIdx?_eq_none_iff.mp h2 ' ' (by simpa using hc)
  simp at h3

/-- When `rfind(' ')` hits, it reports the last space: the string splits as
`w ++ ' ' :: v` with `w` of length exactly the reported index and `v`
space-free. -/
theorem rfindSpace_split (l : List Char) (i : Nat) (h : rfindSpace l = some i) :
    ∃ w v, l = w ++ ' ' :: v ∧ w.length = i ∧ ∀ x ∈ v, x ≠ ' ' := by
  unfold rfindSpace at h
  rcases Option.map_eq_some'.mp h with ⟨j, hj, hji⟩
  rcases findIdx?_split _ _ 0 j hj with ⟨_, u, c, t, hrev, hul, hpc, hu⟩
  have hc : c = ' ' := of_decide_eq_true hpc
  subst hc
  have hl : l = t.reverse ++ ' ' :: u.reverse := by
    have h2 := congrArg List.reverse hrev
    rw [List.reverse_reverse] at h2
    rw [h2, List.reverse_append]
    simp [List.reverse_cons, List.append_assoc]
  refine ⟨t.reverse, u.reverse, hl, ?_, ?_⟩
  · rw [List.length_reverse]
    have hlen := congrArg List.length hrev
    rw [List.length_reverse] at hlen
    simp only [List.length_append, List.length_cons] at hlen
    rw [← hji]
    omega
  · intro x hx heq
    subst heq
    have hx' : ' ' ∈ u := by simpa using hx
    have h4 := hu ' ' hx'
    simp at h4

/-- Claim C5 fails as stated: an eight-character single word truncated to a
four-character budget is cut to `"abcd"` — both the last kept character and
the following original character are letters, so the cut falls mid-word,
not at a whitespace boundary. -/
theorem claim_C5_cex :
    truncar_texto_para_embedding ['a', 'b', 'c', 'd', 'e', 'f', 'g', 'h'] 1 =
        ['a', 'b', 'c', 'd'] ∧
      ¬ (['a', 'b', 'c', 'd', 'e', 'f', 'g', 'h'] : List Char).length ≤ 1 * 4 ∧
      (['a', 'b', 'c', 'd', 'e', 'f', 'g', 'h'] : List Char).get ⟨4, by decide⟩ ≠ ' ' ∧
      (['a', 'b', 'c', 'd', 'e', 'f', 'g', 'h'] : List Char).get ⟨3, by decide⟩ ≠ ' ' ∧
      (truncar_texto_para_embedding ['a', 'b', 'c', 'd', 'e', 'f', 'g', 'h'] 1).length = 4 := by
  decide

/-- Claim C5, amended: short texts pass through unchanged; a longer text is
cut to a prefix of at most `max_tokens * 4` characters, and whenever the
raw `max_tokens * 4`-character prefix contains a space at a positive index
the cut falls at a whitespace boundary — the result is exactly the part of
the text before a space.  (When the raw prefix has no space, or only a
leading one, the raw prefix itself is returned and a word may be cut.) -/
theorem claim_C5 (texto : List Char) (max_tokens : Nat) :
    (texto.length ≤ max_tokens * 4 →
      truncar_texto_para_embedding texto max_tokens = texto) ∧
    (max_tokens * 4 < texto.length →
      StartsWith (truncar_texto_para_embedding texto max_tokens) texto ∧
      (truncar_texto_para_embedding texto max_tokens).length ≤ max_tokens * 4 ∧
      ((∃ w v, texto.take (max_tokens * 4) = w ++ ' ' :: v ∧ w ≠ []) →
        ∃ w rest, texto = w ++ ' ' :: rest ∧
          truncar_texto_para_embedding texto max_tokens = w ∧ w ≠ [])) := by
  constructor
  · intro hle
    rw [truncar_eq, if_pos hle]
  · intro h
    have hnle : ¬ texto.length ≤ max_tokens * 4 := not_le.mpr h
    have htr : texto = texto.take (max_tokens * 4) ++ texto.drop (max_tokens * 4) :=
      (List.take_append_drop _ _).symm
    cases hrf : rfindSpace (texto.take (max_tokens * 4)) with
    | none =>
      have hout : truncar_texto_para_embedding texto max_tokens =
          texto.take (max_tokens * 4) := by
        rw [truncar_eq, if_neg hnle, hrf]
      refine ⟨⟨texto.drop (max_tokens * 4), by rw [hout]; exact htr⟩, ?_, ?_⟩
      · rw [hout, List.length_take]
        exact inf_le_left
      · rintro ⟨w, v, hwv, hw⟩
        have hsp : ' ' ∈ texto.take (max_tokens * 4) := by
          rw [hwv]
          simp
        exact absurd rfl (rfindSpace_none _ hrf ' ' hsp)
    | some i =>
      rcases rfindSpace_split _ _ hrf with ⟨w, v, hwv, hwl, hv⟩
      by_cases hipos : 0 < i
      · have hout : truncar_texto_para_embedding texto max_tokens =
            (texto.take (max_tokens * 4)).take i := by
          rw [truncar_eq, if_neg hnle, hrf]
          simp only [if_pos hipos]
        have houtw : truncar_texto_para_embedding texto max_tokens = w := by
          rw [hout, hwv, ← hwl]
          exact List.take_left w (' ' :: v)
        have htexto : texto = w ++ ' ' :: (v ++ texto.drop (max_tokens * 4)) := by
          conv_lhs => rw [htr]
          rw [hwv, List.append_assoc]
          rfl
        have hwle : w.length ≤ max_tokens * 4 := by
          have hlen := congrArg List.length hwv
          rw [List.length_take] at hlen
          simp only [List.length_append, List.length_cons] at hlen
          have h2 : (max_tokens * 4) ⊓ texto.length = max_tokens * 4 :=
            Nat.min_eq_left (le_of_lt h)
          omega
        have hwne : w ≠ [] := by
          intro hnil
          rw [hnil] at hwl
          simp at hwl
          omega
        refine ⟨⟨' ' :: (v ++ texto.drop (max_tokens * 4)), by rw [houtw]; exact htexto⟩,
          by rw [houtw]; exact hwle, ?_⟩
        intro _
        exact ⟨w, v ++ texto.drop (max_tokens * 4), htexto, houtw, hwne⟩
      · have hi0 : i = 0 := by omega
        subst hi0
        have hout : truncar_texto_para_embedding texto max_tokens =
            texto.take (max_tokens * 4) := by
          rw [truncar_eq, if_neg hnle, hrf]
          simp
        have hw0 : w = [] := List.length_eq_zero.mp hwl
        subst hw0
        simp only [List.nil_append] at hwv
        refine ⟨⟨texto.drop (max_tokens * 4), by rw [hout]; exact htr⟩, ?_, ?_⟩
        · rw [hout, List.length_take]
          exact inf_le_left
        · rintro ⟨w', v', hwv', hw'⟩
          cases w' with
          | nil => exact absurd rfl hw'
          | cons c w'' =>
            rw [hwv] at hwv'
            rw [List.cons_append] at hwv'
            injection hwv' with h1 h2
            have hsp : ' ' ∈ v := by
              rw [h2]
              simp
            exact absurd rfl (hv ' ' hsp)

/-- Claim C5, witness: `"ab cdef"` with a four-character budget is cut at
the space — the result is `"ab"`, the part of the text before a space. -/
theorem claim_C5_witness :
    (1 * 4 < (['a', 'b', ' ', 'c', 'd', 'e', 'f'] : List Char).length) ∧
      (∃ w rest, (['a', 'b', ' ', 'c', 'd', 'e', 'f'] : List Char) = w ++ ' ' :: rest ∧
        truncar_texto_para_embedding ['a', 'b', ' ', 'c', 'd', 'e', 'f'] 1 = w ∧
        w ≠ []) := by
  have h : 1 * 4 < (['a', 'b', ' ', 'c', 'd', 'e', 'f'] : List Char).length := by decide
  exact ⟨h, ((claim_C5 ['a', 'b', ' ', 'c', 'd', 'e', 'f'] 1).2 h).2.2
    ⟨['a', 'b'], ['c'], by decide, by decide⟩⟩

/-! ## Claim C1: embedding failures and run success -/

/-- Claim C1 fails as stated: a run in which BOTH embedding calls raise
(`.error`) but the generation call succeeds ends with `sucesso = true` and
`erro = none` — the embedding failure is not fatal, is not surfaced to the
caller, and the remaining stages run on zero vectors. -/
theorem claim_C1_cex :
    (processar_texto (fun s => [s]) ['o', 'l', 'a']
        (.error ['f', 'a', 'l', 'h', 'a'])
        (.error ['f', 'a', 'l', 'h', 'a'])
        (.ok ['o', 'k'])).sucesso = true ∧
      (processar_texto (fun s => [s]) ['o', 'l', 'a']
        (.error ['f', 'a', 'l', 'h', 'a'])
        (.error ['f', 'a', 'l', 'h', 'a'])
        (.ok ['o', 'k'])).erro = none := by
  constructor <;> rfl

/-- Claim C1, amended: `gerar_embedding` swallows every exception of the
embedding call and returns the 1536-dimensional zero vector (and
`gerar_embeddings_batch` one zero vector per text), so the pipeline keeps
running; the run's `sucesso` and `erro` fields depend only on the
generation call's outcome, never on the embedding calls. -/
theorem claim_C1 (segmentar : List Char → List (List Char))
    (texto_entrada t err : List Char) (textos : List (List Char))
    (chamada_embedding_global : Except (List Char) (List ℝ))
    (chamada_embeddings_chunks : Except (List Char) (List (List ℝ)))
    (chamada_geracao : Except (List Char) (List Char)) :
    gerar_embedding t (.error err) = zeros1536 ∧
      (textos ≠ [] →
        gerar_embeddings_batch textos (.error err) = textos.map (fun _ => zeros1536)) ∧
      (processar_texto segmentar texto_entrada chamada_embedding_global
          chamada_embeddings_chunks chamada_geracao).sucesso =
        (gerar_texto_o4_mini chamada_geracao).sucesso ∧
      (processar_texto segmentar texto_entrada chamada_embedding_global
          chamada_embeddings_chunks chamada_geracao).erro =
        (gerar_texto_o4_mini chamada_geracao).erro := by
  refine ⟨?_, ?_, ?_, ?_⟩
  · unfold gerar_embedding
    by_cases hs : stripStr t = []
    · rw [if_pos hs]
    · rw [if_neg hs]
  · intro hne
    unfold gerar_embeddings_batch
    rw [if_neg hne]
  · cases chamada_geracao with
    | ok g => rfl
    | error e => rfl
  · cases chamada_geracao with
    | ok g => rfl
    | error e => rfl

/-- Claim C1, witness: a concrete failing batch call on one text returns
one zero vector, and a failing single call returns the zero vector. -/
theorem claim_C1_witness :
    (([['x']] : List (List Char)) ≠ []) ∧
      gerar_embeddings_batch [['x']] (.error ['e']) =
        ([['x']] : List (List Char)).map (fun _ => zeros1536) ∧
      gerar_embedding ['x'] (.error ['e']) = zeros1536 := by
  refine ⟨by decide, ?_, ?_⟩
  · exact (claim_C1 (fun s => [s]) ['x'] ['x'] ['e'] [['x']] (.error ['e'])
      (.error ['e']) (.ok ['x'])).2.1 (by decide)
  · exact (claim_C1 (fun s => [s]) ['x'] ['x'] ['e'] [['x']] (.error ['e'])
      (.error ['e']) (.ok ['x'])).1

end Projeto
